import Mathlib

/-! # Verification of the sonatina dominance-analysis subsystem

Shallow embedding of `crates/codegen/src/domtree.rs`:
* `DomTree` (immediate-dominator map + reverse-postorder sequence),
  its `compute` fixed-point loop, `intersect`, and the query surface
  (`idom_of`, `is_reachable`, `strictly_dominates`, `dominates`, `rpo`);
* `DFSet` and `DomTree.compute_df` (dominance frontiers);
* `DominatorTreeTraversable` (parent-to-children view).

Block identifiers are natural numbers (the Rust `BlockId` is an opaque dense
handle).  `SecondaryMap<BlockId, PackedOption<BlockId>>` is embedded as an
association list where an absent key is the `PackedOption::none` default.
Rust operations that can panic (`Vec` indexing such as `self.rpo[0]`,
`Option::unwrap`) or diverge (unbounded `while` loops) are embedded in
`Option`: a `none` result marks a panic or divergence, and loops carry an
explicit fuel whose exhaustion also yields `none`.

The `ControlFlowGraph` collaborator (predecessor lists, predecessor counts
and the depth-first post-order traversal) lives outside the excerpted
sources; it is modelled from the spec below.
-/

/-- Opaque dense block handle (Rust `BlockId`). -/
abbrev BlockId := Nat

/-- Modelled from the spec: the Control-Flow Graph collaborator.  The spec
describes it as exposing, per block, its predecessor list (order-stable),
its predecessor count, and a depth-first post-order traversal seeded at the
function's entry block.  We represent a graph snapshot as the function's
block list (whose first element is the designated entry block) together
with its control-flow edge list. -/
structure ControlFlowGraph where
  blocks : List BlockId
  edges : List (BlockId × BlockId)
deriving DecidableEq, Repr

namespace ControlFlowGraph

/-- The designated entry block: first block of the function, if any. -/
def entryBlock (g : ControlFlowGraph) : Option BlockId :=
  g.blocks.head?

/-- Successor list of a block, in edge order. -/
def succs_of (g : ControlFlowGraph) (b : BlockId) : List BlockId :=
  (g.edges.filter (fun e => e.1 == b)).map (fun e => e.2)

/-- Predecessor list of a block, in edge order (order-stable per snapshot). -/
def preds_of (g : ControlFlowGraph) (b : BlockId) : List BlockId :=
  (g.edges.filter (fun e => e.2 == b)).map (fun e => e.1)

/-- Predecessor count of a block. -/
def pred_num_of (g : ControlFlowGraph) (b : BlockId) : Nat :=
  (g.preds_of b).length

end ControlFlowGraph

mutual

/-- Modelled from the spec: depth-first visit for the post-order traversal.
`dfsVisit` explores one block (skipping it if already visited), appending it
to the output after all its successors have been explored; `dfsSuccs` folds
the visit over a successor list.  The fuel only bounds the recursion; the
traversal of a whole graph is run with ample fuel. -/
def dfsVisit (g : ControlFlowGraph) :
    Nat → BlockId → List BlockId → List BlockId → List BlockId × List BlockId
  | 0, _, visited, out => (visited, out)
  | fuel + 1, b, visited, out =>
    if b ∈ visited then (visited, out)
    else
      let vo := dfsSuccs g fuel (g.succs_of b) (b :: visited) out
      (vo.1, vo.2 ++ [b])

/-- Modelled from the spec: fold `dfsVisit` over a successor list. -/
def dfsSuccs (g : ControlFlowGraph) :
    Nat → List BlockId → List BlockId → List BlockId → List BlockId × List BlockId
  | 0, _, visited, out => (visited, out)
  | _ + 1, [], visited, out => (visited, out)
  | fuel + 1, s :: rest, visited, out =>
    let vo := dfsVisit g fuel s visited out
    dfsSuccs g fuel rest vo.1 vo.2

end

namespace ControlFlowGraph

/-- Modelled from the spec: the depth-first post-order traversal of the
graph, seeded at the entry block.  Empty when the function has no blocks. -/
def post_order (g : ControlFlowGraph) : List BlockId :=
  match g.blocks.head? with
  | none => []
  | some e => (dfsVisit g (g.blocks.length + g.edges.length + 1) e [] []).2

/-- A block is reachable when some control-flow path from the entry block
reaches it. -/
inductive Reach (g : ControlFlowGraph) : BlockId → Prop
  | entry (e : BlockId) : g.entryBlock = some e → Reach g e
  | step {p s : BlockId} : Reach g p → s ∈ g.succs_of p → Reach g s

end ControlFlowGraph

/-- Lookup in a `SecondaryMap<BlockId, PackedOption<BlockId>>` embedded as
an association list; an absent key is the `PackedOption::none` default. -/
def getDom (doms : List (BlockId × BlockId)) (b : BlockId) : Option BlockId :=
  (doms.find? (fun pr => pr.1 == b)).map (fun pr => pr.2)

/-- Store `doms[b] = v.into()` in the association list. -/
def setDom : List (BlockId × BlockId) → BlockId → BlockId → List (BlockId × BlockId)
  | [], b, v => [(b, v)]
  | pr :: rest, b, v => if pr.1 = b then (b, v) :: rest else pr :: setDom rest b v

/-- The `rpo_nums` side table of `DomTree::compute`:
`rpo_nums[block] = block_num - i` for the `i`-th block of the RPO sequence
(`n` is the total block number, `i` the index of the head of the remaining
list). -/
def buildRpoNumsAux (n : Nat) : Nat → List BlockId → List (BlockId × Nat)
  | _, [] => []
  | i, b :: rest => (b, n - i) :: buildRpoNumsAux n (i + 1) rest

/-- `rpo_nums` for a whole RPO sequence. -/
def buildRpoNums (rpo : List BlockId) : List (BlockId × Nat) :=
  buildRpoNumsAux rpo.length 0 rpo

/-- Lookup in the `rpo_nums` table (a `SecondaryMap<BlockId, u32>`, whose
default value for an unassigned key is `0`). -/
def rpoNumOf (nums : List (BlockId × Nat)) (b : BlockId) : Nat :=
  ((nums.find? (fun pr => pr.1 == b)).map (fun pr => pr.2)).getD 0

/-- The dominator tree state: the `doms` immediate-dominator map and the
reverse-postorder sequence `rpo` (Rust struct `DomTree`). -/
structure DomTree where
  doms : List (BlockId × BlockId)
  rpo : List BlockId
deriving DecidableEq, Repr

namespace DomTree

/-- `DomTree::new` / `DomTree::default`: empty state. -/
def new : DomTree := { doms := [], rpo := [] }

/-- `DomTree::clear`: reset both tables. -/
def clear (_dt : DomTree) : DomTree := { doms := [], rpo := [] }

/-- `DomTree::idom_of`.  The Rust body first evaluates `self.rpo[0]`, which
panics when the RPO sequence is empty: the outer `none` marks that panic.
Otherwise the result is `some none` for the entry block (the `return None`)
and `some (self.doms[block].expand())` for any other block. -/
def idom_of (dt : DomTree) (block : BlockId) : Option (Option BlockId) :=
  match dt.rpo.head? with
  | none => none
  | some e => if e = block then some none else some (getDom dt.doms block)

/-- The `while let Some(block) = self.idom_of(current_block)` loop of
`DomTree::strictly_dominates`, with explicit fuel; `none` marks a panic
inside `idom_of` or fuel exhaustion (divergence). -/
def sdomWalk (dt : DomTree) : Nat → BlockId → BlockId → Option Bool
  | 0, _, _ => none
  | fuel + 1, block1, current =>
    match dt.idom_of current with
    | none => none
    | some none => some false
    | some (some block) =>
      if block = block1 then some true else sdomWalk dt fuel block1 block

/-- `DomTree::strictly_dominates`.  On any state whose dominator chains are
rank-decreasing (which `compute` establishes) a chain has fewer than
`rpo.length` links, so the fuel `rpo.length + 1` never runs out. -/
def strictly_dominates (dt : DomTree) (block1 block2 : BlockId) : Option Bool :=
  sdomWalk dt (dt.rpo.length + 1) block1 block2

/-- `DomTree::dominates`: reflexive closure of `strictly_dominates`; the
equality test happens before any `idom_of` call. -/
def dominates (dt : DomTree) (block1 block2 : BlockId) : Option Bool :=
  if block1 = block2 then some true else dt.strictly_dominates block1 block2

/-- `DomTree::is_reachable`: `self.idom_of(block).is_some()`. -/
def is_reachable (dt : DomTree) (block : BlockId) : Option Bool :=
  (dt.idom_of block).map Option.isSome

/-- The two nested climbing loops of `DomTree::intersect`, step-fused: at
each step the cursor with the smaller `rpo_nums` rank is replaced by its
recorded immediate dominator.  `none` marks an `unwrap` panic on a cursor
with no recorded dominator, the divergence of the Rust loop when the two
distinct cursors have equal ranks, or fuel exhaustion. -/
def intersect (doms : List (BlockId × BlockId)) (nums : List (BlockId × Nat)) :
    Nat → BlockId → BlockId → Option BlockId
  | 0, _, _ => none
  | fuel + 1, b1, b2 =>
    if b1 = b2 then some b1
    else if rpoNumOf nums b1 < rpoNumOf nums b2 then
      match getDom doms b1 with
      | none => none
      | some d => intersect doms nums fuel d b2
    else if rpoNumOf nums b2 < rpoNumOf nums b1 then
      match getDom doms b2 with
      | none => none
      | some d => intersect doms nums fuel b1 d
    else none

/-- The body of the `for &block in self.rpo.iter().skip(1)` loop of
`DomTree::compute`: pick the first predecessor with a recorded dominator as
seed, fold every other processed predecessor in with `intersect`, and record
the candidate if it differs from the current entry (flagging the change). -/
def passBlock (cfg : ControlFlowGraph) (nums : List (BlockId × Nat)) (ifuel : Nat)
    (st : List (BlockId × BlockId) × Bool) (block : BlockId) :
    Option (List (BlockId × BlockId) × Bool) :=
  match (cfg.preds_of block).find? (fun pred => (getDom st.1 pred).isSome) with
  | none => some st
  | some processed_pred =>
    let folded := (cfg.preds_of block).foldl
      (fun acc pred =>
        match acc with
        | none => none
        | some new_dom =>
          if pred ≠ processed_pred ∧ (getDom st.1 pred).isSome then
            intersect st.1 nums ifuel new_dom pred
          else
            some new_dom)
      (some processed_pred)
    match folded with
    | none => none
    | some new_dom =>
      if getDom st.1 block = some new_dom then some st
      else some (setDom st.1 block new_dom, true)

/-- One full pass of the fixed-point loop over the RPO tail. -/
def passOnce (cfg : ControlFlowGraph) (nums : List (BlockId × Nat)) (ifuel : Nat) :
    List BlockId → List (BlockId × BlockId) × Bool →
    Option (List (BlockId × BlockId) × Bool)
  | [], st => some st
  | b :: rest, st =>
    match passBlock cfg nums ifuel st b with
    | none => none
    | some st' => passOnce cfg nums ifuel rest st'

/-- The `while changed` loop of `DomTree::compute`: run passes until one
makes no change; `none` marks a pass that panicked or a loop that did not
converge within the fuel. -/
def computeLoop (cfg : ControlFlowGraph) (nums : List (BlockId × Nat))
    (ifuel : Nat) (rpoTail : List BlockId) :
    Nat → List (BlockId × BlockId) → Option (List (BlockId × BlockId))
  | 0, _ => none
  | fuel + 1, doms =>
    match passOnce cfg nums ifuel rpoTail (doms, false) with
    | none => none
    | some (doms', true) => computeLoop cfg nums ifuel rpoTail fuel doms'
    | some (doms', false) => some doms'

/-- `DomTree::compute`: clear the state, build the RPO sequence (reverse of
the CFG post-order) and the `rpo_nums` ranks, return early on an empty
sequence, seed the entry block with itself, and iterate passes to the fixed
point.  The intersect fuel `2 * n + 2` and the pass fuel `n * n + 2` exceed
what a run that maintains the rank invariant can consume. -/
def compute (_dt : DomTree) (cfg : ControlFlowGraph) : Option DomTree :=
  let rpo := cfg.post_order.reverse
  let n := rpo.length
  let nums := buildRpoNums rpo
  match rpo with
  | [] => some { doms := [], rpo := rpo }
  | entry :: rpoTail =>
    match computeLoop cfg nums (2 * n + 2) rpoTail (n * n + 2) (setDom [] entry entry) with
    | none => none
    | some doms => some { doms := doms, rpo := rpo }

end DomTree

/-- Insert into an ordered duplicate-free list (the `BTreeSet<BlockId>` of a
frontier entry). -/
def insertSorted (x : BlockId) : List BlockId → List BlockId
  | [] => [x]
  | y :: ys =>
    if x < y then x :: y :: ys
    else if x = y then y :: ys
    else y :: insertSorted x ys

/-- Dominance frontiers of each block (Rust struct `DFSet`, a
`SecondaryMap<BlockId, BTreeSet<BlockId>>`): association list from a block
to its ordered frontier set, an absent key being the empty default set. -/
structure DFSet where
  sets : List (BlockId × List BlockId)
deriving DecidableEq, Repr

namespace DFSet

/-- `DFSet::frontiers` (as the underlying member list of the set). -/
def frontiers (df : DFSet) (block : BlockId) : List BlockId :=
  ((df.sets.find? (fun pr => pr.1 == block)).map (fun pr => pr.2)).getD []

/-- Update of one owner's set inside the frontier table. -/
def insertAux (owner member : BlockId) : List (BlockId × List BlockId) →
    List (BlockId × List BlockId)
  | [] => [(owner, [member])]
  | pr :: rest =>
    if pr.1 = owner then (owner, insertSorted member pr.2) :: rest
    else pr :: insertAux owner member rest

/-- `df.0[runner].insert(block)`. -/
def insert (df : DFSet) (owner member : BlockId) : DFSet :=
  { sets := insertAux owner member df.sets }

/-- `DFSet::in_frontier_of`: membership of `block` in the frontier of `of`. -/
def in_frontier_of (df : DFSet) (block ofb : BlockId) : Bool :=
  block ∈ df.frontiers ofb

/-- `DFSet::frontier_num_of`: cardinality of the frontier of `of`. -/
def frontier_num_of (df : DFSet) (ofb : BlockId) : Nat :=
  (df.frontiers ofb).length

/-- `DFSet::clear`. -/
def clear (_df : DFSet) : DFSet := { sets := [] }

end DFSet

namespace DomTree

/-- The `while` walk of `DomTree::compute_df` for one predecessor: while the
runner differs from `doms[block]` and is reachable, add `block` to the
runner's frontier and move the runner to its recorded dominator.  The guards
are evaluated in the Rust short-circuit order; `none` marks the `unwrap`
panic (never hit on states where reachability implies a recorded dominator)
or fuel exhaustion. -/
def dfWalk (dt : DomTree) (block : BlockId) : Nat → BlockId → DFSet → Option DFSet
  | 0, _, _ => none
  | fuel + 1, runner, df =>
    if some runner = getDom dt.doms block then some df
    else
      match dt.is_reachable runner with
      | none => none
      | some false => some df
      | some true =>
        match getDom dt.doms runner with
        | none => none
        | some d => dfWalk dt block fuel d (df.insert runner block)

/-- The `for pred in cfg.preds_of(block)` loop of `DomTree::compute_df`. -/
def dfPreds (dt : DomTree) (block : BlockId) :
    List BlockId → DFSet → Option DFSet
  | [], df => some df
  | pred :: rest, df =>
    match dfWalk dt block (dt.rpo.length + 1) pred df with
    | none => none
    | some df' => dfPreds dt block rest df'

/-- The `for &block in &self.rpo` loop of `DomTree::compute_df`. -/
def dfBlocks (dt : DomTree) (cfg : ControlFlowGraph) :
    List BlockId → DFSet → Option DFSet
  | [], df => some df
  | block :: rest, df =>
    if cfg.pred_num_of block < 2 then dfBlocks dt cfg rest df
    else
      match dfPreds dt block (cfg.preds_of block) df with
      | none => none
      | some df' => dfBlocks dt cfg rest df'

/-- `DomTree::compute_df`: start from an empty `DFSet` and process every RPO
block with at least two predecessors. -/
def compute_df (dt : DomTree) (cfg : ControlFlowGraph) : Option DFSet :=
  dfBlocks dt cfg dt.rpo { sets := [] }

end DomTree

/-- Parent-to-children dominator-tree view (Rust struct
`DominatorTreeTraversable`, a `SecondaryMap<BlockId, Vec<BlockId>>`):
association list from a block to its ordered children list, an absent key
being the empty default list. -/
structure DominatorTreeTraversable where
  children : List (BlockId × List BlockId)
deriving DecidableEq, Repr

namespace DominatorTreeTraversable

/-- `self.children[idom].push(block)`. -/
def pushChild : List (BlockId × List BlockId) → BlockId → BlockId →
    List (BlockId × List BlockId)
  | [], parent, child => [(parent, [child])]
  | pr :: rest, parent, child =>
    if pr.1 = parent then (parent, pr.2 ++ [child]) :: rest
    else pr :: pushChild rest parent child

/-- The `for &block in domtree.rpo()` loop of
`DominatorTreeTraversable::compute`, threading the children table.  Note the
Rust method never clears `self.children` first. -/
def computeAux (dt : DomTree) :
    List BlockId → List (BlockId × List BlockId) →
    Option (List (BlockId × List BlockId))
  | [], ch => some ch
  | block :: rest, ch =>
    match dt.idom_of block with
    | none => none
    | some none => computeAux dt rest ch
    | some (some idom) => computeAux dt rest (pushChild ch idom block)

/-- `DominatorTreeTraversable::compute`. -/
def compute (t : DominatorTreeTraversable) (dt : DomTree) :
    Option DominatorTreeTraversable :=
  (computeAux dt dt.rpo t.children).map (fun ch => { children := ch })

/-- `DominatorTreeTraversable::children_of`. -/
def children_of (t : DominatorTreeTraversable) (block : BlockId) : List BlockId :=
  ((t.children.find? (fun pr => pr.1 == block)).map (fun pr => pr.2)).getD []

/-- `DominatorTreeTraversable::clear`. -/
def clear (_t : DominatorTreeTraversable) : DominatorTreeTraversable :=
  { children := [] }

end DominatorTreeTraversable

/-! ## Concrete control-flow graphs used as witnesses and counterexamples -/

/-- Diamond graph: entry `0` branches to `1` and `2`, which merge at `3`. -/
def cfgDiamond : ControlFlowGraph :=
  { blocks := [0, 1, 2, 3], edges := [(0, 1), (0, 2), (1, 3), (2, 3)] }

/-- Two-block loop: `0 → 1` and the back edge `1 → 0` into the entry. -/
def cfgLoop2 : ControlFlowGraph :=
  { blocks := [0, 1], edges := [(0, 1), (1, 0)] }

/-- Straight line: entry `0` jumps to `1`. -/
def cfgLine : ControlFlowGraph :=
  { blocks := [0, 1], edges := [(0, 1)] }

/-- A function with no blocks at all. -/
def cfgEmpty : ControlFlowGraph := { blocks := [], edges := [] }

/-- Merge block `1` with the reachable predecessor `0` (the entry) and the
unreachable predecessor `2`. -/
def cfgUnreach : ControlFlowGraph :=
  { blocks := [0, 1, 2], edges := [(0, 1), (2, 1)] }

/-- The dominator tree `compute` builds for `cfgDiamond`. -/
def dtDiamond : DomTree :=
  { doms := [(0, 0), (2, 0), (1, 0), (3, 0)], rpo := [0, 2, 1, 3] }

/-- The dominator tree `compute` builds for `cfgLoop2` (and for `cfgLine`). -/
def dtLoop2 : DomTree :=
  { doms := [(0, 0), (1, 0)], rpo := [0, 1] }

/-! ## C1: `is_reachable` versus membership in the RPO sequence -/

/-- C1, counterexample: the claim asserts that `is_reachable` is true
exactly on the blocks of the RPO sequence, "in particular ... for the entry
block".  On the two-block graph `0 → 1` the entry block `0` heads the RPO
sequence, yet `is_reachable 0` returns `false`, because `idom_of` reports
`None` for the entry block and `is_reachable` is `idom_of(..).is_some()`. -/
theorem c1_counterexample :
    DomTree.compute DomTree.new cfgLine = some dtLoop2 ∧
    0 ∈ dtLoop2.rpo ∧ dtLoop2.is_reachable 0 = some false := by
  refine ⟨by decide, by decide, by decide⟩

/-- Helper: what a successful keyed `find?` on an association list yields. -/
theorem find?_key_spec {α : Type} :
    ∀ {l : List (BlockId × α)} {b : BlockId} {pr : BlockId × α},
      l.find? (fun pr => pr.1 == b) = some pr → pr ∈ l ∧ pr.1 = b
  | [], _, _, h => by simp at h
  | hd :: tl, b, pr, h => by
    by_cases hhd : hd.1 = b
    · rw [List.find?_cons_of_pos _ (by simpa using hhd)] at h
      cases h
      exact ⟨List.mem_cons_self _ _, hhd⟩
    · rw [List.find?_cons_of_neg _ (by simpa using hhd)] at h
      have := find?_key_spec h
      exact ⟨List.mem_cons_of_mem _ this.1, this.2⟩

/-- Helper: a successful `getDom` lookup exhibits a stored pair. -/
theorem getDom_eq_some_mem {doms : List (BlockId × BlockId)} {b v : BlockId}
    (h : getDom doms b = some v) : (b, v) ∈ doms := by
  unfold getDom at h
  cases hf : doms.find? (fun pr => pr.1 == b) with
  | none => rw [hf] at h; simp at h
  | some pr =>
    rw [hf] at h
    obtain ⟨hmem, h1⟩ := find?_key_spec hf
    have h2 : pr.2 = v := by simpa using h
    have : pr = (b, v) := by
      cases pr; simp_all
    rwa [this] at hmem

/-- Helper: a stored key makes `getDom` succeed. -/
theorem getDom_isSome_iff {doms : List (BlockId × BlockId)} {b : BlockId} :
    (getDom doms b).isSome = true ↔ ∃ v, (b, v) ∈ doms ∧ getDom doms b = some v := by
  constructor
  · intro h
    cases hv : getDom doms b with
    | none => rw [hv] at h; simp at h
    | some v => exact ⟨v, getDom_eq_some_mem hv, rfl⟩
  · rintro ⟨v, -, hv⟩
    simp [hv]

/-- On a state whose dominator map is defined on every RPO block and only
on RPO blocks, `is_reachable b` returns `true` iff `b` appears in the RPO
sequence and `b` is not the entry block. -/
theorem is_reachable_spec (dt : DomTree) (e : BlockId)
    (he : dt.rpo.head? = some e)
    (hdef : ∀ b ∈ dt.rpo, (getDom dt.doms b).isSome)
    (hkeys : ∀ pr ∈ dt.doms, pr.1 ∈ dt.rpo) :
    ∀ b, dt.is_reachable b = some true ↔ (b ∈ dt.rpo ∧ b ≠ e) := by
  intro b
  unfold DomTree.is_reachable DomTree.idom_of
  rw [he]
  by_cases hb : e = b
  · subst hb
    simp only [if_pos rfl]
    constructor
    · intro h; simp at h
    · rintro ⟨-, hne⟩; exact absurd rfl hne
  · simp only [if_neg hb]
    constructor
    · intro h
      have hs : (getDom dt.doms b).isSome = true := by
        cases hg : getDom dt.doms b with
        | none => rw [hg] at h; simp at h
        | some v => simp
      obtain ⟨v, hv, -⟩ := getDom_isSome_iff.mp hs
      exact ⟨hkeys _ hv, fun hbe => hb hbe.symm⟩
    · rintro ⟨hbr, -⟩
      have := hdef b hbr
      cases hg : getDom dt.doms b with
      | none => rw [hg] at this; simp at this
      | some v => simp [hg]

/-- C1, amended: after `compute`, `is_reachable b` returns `true` iff `b`
appears in the RPO sequence and `b` is not the entry block; the entry
block, although first in a non-empty RPO sequence, is reported as not
reachable. -/
theorem c1_is_reachable_iff (dt : DomTree) (e : BlockId)
    (he : dt.rpo.head? = some e)
    (hdef : ∀ b ∈ dt.rpo, (getDom dt.doms b).isSome)
    (hkeys : ∀ pr ∈ dt.doms, pr.1 ∈ dt.rpo) :
    ∀ b, dt.is_reachable b = some true ↔ (b ∈ dt.rpo ∧ b ≠ e) :=
  is_reachable_spec dt e he hdef hkeys

/-- C1 witness: the amended theorem instantiated on the diamond graph. -/
theorem c1_witness :
    (3 ∈ dtDiamond.rpo ∧ (3 : BlockId) ≠ 0) ∧
      dtDiamond.is_reachable 3 = some true := by
  refine ⟨by decide, ?_⟩
  exact (c1_is_reachable_iff dtDiamond 0 rfl (by decide) (by decide) 3).mpr (by decide)

/-! ## C2: idempotence of the three recomputations -/

/-- The children table after one traversable `compute` over `cfgLine`. -/
def ttLine1 : DominatorTreeTraversable := { children := [(0, [1])] }

/-- The children table after a second traversable `compute` (no clearing):
block `1` is pushed onto `children[0]` again. -/
def ttLine2 : DominatorTreeTraversable := { children := [(0, [1, 1])] }

/-- C2, counterexample: `DominatorTreeTraversable::compute` never clears
`self.children`, so a second call on the unchanged dominator tree pushes
every block onto its parent's list again; on the two-block graph `0 → 1`
the children list of `0` becomes `[1, 1]` instead of `[1]`. -/
theorem c2_counterexample :
    DomTree.compute DomTree.new cfgLine = some dtLoop2 ∧
    DominatorTreeTraversable.compute { children := [] } dtLoop2 = some ttLine1 ∧
    DominatorTreeTraversable.compute ttLine1 dtLoop2 = some ttLine2 ∧
    ttLine2.children_of 0 ≠ ttLine1.children_of 0 := by
  refine ⟨by decide, by decide, by decide, by decide⟩

/-- C2, amended: re-running `DomTree::compute` on an unchanged graph
snapshot is idempotent (it clears all derived state on entry, so a second
call reproduces exactly the same immediate-dominator map and RPO sequence),
and `compute_df` is a pure function of the tree and graph, yielding
identical frontier sets on every call; `DominatorTreeTraversable::compute`
however does not clear its children table, and re-running it reproduces the
same children lists only when `clear` is called first. -/
theorem c2_idempotent (cfg : ControlFlowGraph) (dt0 dt' : DomTree)
    (h : DomTree.compute dt0 cfg = some dt') :
    DomTree.compute dt' cfg = some dt' ∧
    dt'.compute_df cfg = dt'.compute_df cfg ∧
    ∀ t', DominatorTreeTraversable.compute { children := [] } dt' = some t' →
      DominatorTreeTraversable.compute t'.clear dt' = some t' := by
  refine ⟨?_, rfl, ?_⟩
  · have hindep : DomTree.compute dt' cfg = DomTree.compute dt0 cfg := rfl
    rw [hindep, h]
  · intro t' ht'
    have hclear : t'.clear = ({ children := [] } : DominatorTreeTraversable) := rfl
    rw [hclear, ht']

/-- C2 witness: the amended theorem instantiated on the diamond graph. -/
theorem c2_witness : DomTree.compute dtDiamond cfgDiamond = some dtDiamond :=
  (c2_idempotent cfgDiamond DomTree.new dtDiamond (by decide)).1

/-! ## C3: behaviour on an empty control-flow graph -/

/-- C3, counterexample: the claim asserts that on an empty graph every
query yields a trivially empty or negative result "rather than failing".
In fact `idom_of` evaluates `self.rpo[0]`, which panics on the empty RPO
vector (the `none` result below), and `is_reachable` and
`strictly_dominates` panic through it as well. -/
theorem c3_counterexample :
    DomTree.compute DomTree.new cfgEmpty = some DomTree.new ∧
    DomTree.new.idom_of 0 = none ∧
    DomTree.new.is_reachable 0 = none ∧
    DomTree.new.strictly_dominates 0 1 = none := by
  refine ⟨by decide, rfl, rfl, rfl⟩

/-- C3, amended: for a function with no blocks, `compute` stops right after
producing the empty RPO sequence (the dominator map stays empty), `rpo()`
is empty and `dominates(b, b)` still answers `true`; but `idom_of`,
`is_reachable` and `strictly_dominates` index `rpo[0]` and panic (result
`none` in this embedding) instead of returning an empty or negative
result. -/
theorem c3_empty_graph (cfg : ControlFlowGraph) (hb : cfg.blocks = [])
    (dt0 : DomTree) :
    ∃ dt', DomTree.compute dt0 cfg = some dt' ∧ dt'.rpo = [] ∧ dt'.doms = [] ∧
      ∀ b c : BlockId,
        dt'.idom_of b = none ∧ dt'.is_reachable b = none ∧
        dt'.strictly_dominates b c = none ∧ dt'.dominates b b = some true ∧
        (b ≠ c → dt'.dominates b c = none) := by
  have hpost : cfg.post_order = [] := by
    unfold ControlFlowGraph.post_order
    rw [hb]
    rfl
  refine ⟨{ doms := [], rpo := [] }, ?_, rfl, rfl, ?_⟩
  · unfold DomTree.compute
    rw [hpost]
    rfl
  · intro b c
    refine ⟨rfl, rfl, rfl, by simp [DomTree.dominates], ?_⟩
    intro hbc
    simp [DomTree.dominates, hbc]
    rfl

/-- C3 witness: the amended theorem instantiated on the concrete empty
graph. -/
theorem c3_witness :
    ∃ dt', DomTree.compute DomTree.new cfgEmpty = some dt' ∧ dt'.rpo = [] ∧
      dt'.doms = [] ∧
      ∀ b c : BlockId,
        dt'.idom_of b = none ∧ dt'.is_reachable b = none ∧
        dt'.strictly_dominates b c = none ∧ dt'.dominates b b = some true ∧
        (b ≠ c → dt'.dominates b c = none) :=
  c3_empty_graph cfgEmpty rfl DomTree.new

/-! ## Properties of the modelled depth-first post-order traversal -/

/-- Invariants of the depth-first traversal, for every fuel: the visited
set only grows, every output block is visited, the output has no
duplicates, and every output block was either already in the output or not
yet visited. -/
theorem dfs_inv (g : ControlFlowGraph) :
    ∀ fuel : Nat,
      (∀ b visited out, (∀ x ∈ out, x ∈ visited) → out.Nodup →
        (∀ x ∈ visited, x ∈ (dfsVisit g fuel b visited out).1) ∧
        (∀ x ∈ (dfsVisit g fuel b visited out).2,
          x ∈ (dfsVisit g fuel b visited out).1) ∧
        (dfsVisit g fuel b visited out).2.Nodup ∧
        (∀ x ∈ (dfsVisit g fuel b visited out).2, x ∈ out ∨ x ∉ visited)) ∧
      (∀ l visited out, (∀ x ∈ out, x ∈ visited) → out.Nodup →
        (∀ x ∈ visited, x ∈ (dfsSuccs g fuel l visited out).1) ∧
        (∀ x ∈ (dfsSuccs g fuel l visited out).2,
          x ∈ (dfsSuccs g fuel l visited out).1) ∧
        (dfsSuccs g fuel l visited out).2.Nodup ∧
        (∀ x ∈ (dfsSuccs g fuel l visited out).2, x ∈ out ∨ x ∉ visited)) := by
  intro fuel
  induction fuel with
  | zero =>
    constructor
    · intro b visited out hsub hnd
      simp only [dfsVisit]
      exact ⟨fun x hx => hx, hsub, hnd, fun x hx => Or.inl hx⟩
    · intro l visited out hsub hnd
      simp only [dfsSuccs]
      exact ⟨fun x hx => hx, hsub, hnd, fun x hx => Or.inl hx⟩
  | succ f ih =>
    constructor
    · intro b visited out hsub hnd
      by_cases hb : b ∈ visited
      · simp only [dfsVisit, if_pos hb]
        exact ⟨fun x hx => hx, hsub, hnd, fun x hx => Or.inl hx⟩
      · have hsub' : ∀ x ∈ out, x ∈ b :: visited :=
          fun x hx => List.mem_cons_of_mem _ (hsub x hx)
        obtain ⟨hgrow, hov, hond, hnew⟩ := ih.2 (g.succs_of b) (b :: visited) out hsub' hnd
        have heq : dfsVisit g (f + 1) b visited out =
            ((dfsSuccs g f (g.succs_of b) (b :: visited) out).1,
             (dfsSuccs g f (g.succs_of b) (b :: visited) out).2 ++ [b]) := by
          simp only [dfsVisit, if_neg hb]
        rw [heq]
        refine ⟨?_, ?_, ?_, ?_⟩
        · intro x hx
          exact hgrow x (List.mem_cons_of_mem _ hx)
        · intro x hx
          rcases List.mem_append.mp hx with hx' | hx'
          · exact hov x hx'
          · have : x = b := by simpa using hx'
            subst this
            exact hgrow x (List.mem_cons_self _ _)
        · rw [List.nodup_append]
          refine ⟨hond, List.nodup_singleton _, ?_⟩
          intro x hx hx'
          have : x = b := by simpa using hx'
          subst this
          rcases hnew x hx with h | h
          · exact hb (hsub x h)
          · exact h (List.mem_cons_self _ _)
        · intro x hx
          rcases List.mem_append.mp hx with hx' | hx'
          · rcases hnew x hx' with h | h
            · exact Or.inl h
            · exact Or.inr fun hv => h (List.mem_cons_of_mem _ hv)
          · have : x = b := by simpa using hx'
            subst this
            exact Or.inr hb
    · intro l visited out hsub hnd
      match l with
      | [] =>
        simp only [dfsSuccs]
        exact ⟨fun x hx => hx, hsub, hnd, fun x hx => Or.inl hx⟩
      | s :: rest =>
        obtain ⟨hgrow1, hov1, hond1, hnew1⟩ := ih.1 s visited out hsub hnd
        obtain ⟨hgrow2, hov2, hond2, hnew2⟩ :=
          ih.2 rest (dfsVisit g f s visited out).1 (dfsVisit g f s visited out).2
            hov1 hond1
        have heq : dfsSuccs g (f + 1) (s :: rest) visited out =
            dfsSuccs g f rest (dfsVisit g f s visited out).1
              (dfsVisit g f s visited out).2 := by
          simp only [dfsSuccs]
        rw [heq]
        refine ⟨fun x hx => hgrow2 x (hgrow1 x hx), hov2, hond2, ?_⟩
        intro x hx
        rcases hnew2 x hx with h | h
        · rcases hnew1 x h with h' | h'
          · exact Or.inl h'
          · exact Or.inr h'
        · exact Or.inr fun hv => h (hgrow1 x hv)

/-- Soundness of the depth-first traversal: starting from a reachable block
with a reachable output accumulator, every output block is reachable. -/
theorem dfs_sound (g : ControlFlowGraph) :
    ∀ fuel : Nat,
      (∀ b visited out, ControlFlowGraph.Reach g b →
        (∀ x ∈ out, ControlFlowGraph.Reach g x) →
        ∀ x ∈ (dfsVisit g fuel b visited out).2, ControlFlowGraph.Reach g x) ∧
      (∀ l visited out, (∀ s ∈ l, ControlFlowGraph.Reach g s) →
        (∀ x ∈ out, ControlFlowGraph.Reach g x) →
        ∀ x ∈ (dfsSuccs g fuel l visited out).2, ControlFlowGraph.Reach g x) := by
  intro fuel
  induction fuel with
  | zero =>
    constructor
    · intro b visited out _ hout
      simpa only [dfsVisit] using hout
    · intro l visited out _ hout
      simpa only [dfsSuccs] using hout
  | succ f ih =>
    constructor
    · intro b visited out hb hout
      by_cases hbv : b ∈ visited
      · simpa only [dfsVisit, if_pos hbv] using hout
      · have heq : (dfsVisit g (f + 1) b visited out).2 =
            (dfsSuccs g f (g.succs_of b) (b :: visited) out).2 ++ [b] := by
          simp only [dfsVisit, if_neg hbv]
        rw [heq]
        intro x hx
        rcases List.mem_append.mp hx with hx' | hx'
        · exact ih.2 (g.succs_of b) (b :: visited) out
            (fun s hs => ControlFlowGraph.Reach.step hb hs) hout x hx'
        · have : x = b := by simpa using hx'
          subst this
          exact hb
    · intro l visited out hl hout
      match l with
      | [] => simpa only [dfsSuccs] using hout
      | s :: rest =>
        have heq : (dfsSuccs g (f + 1) (s :: rest) visited out).2 =
            (dfsSuccs g f rest (dfsVisit g f s visited out).1
              (dfsVisit g f s visited out).2).2 := by
          simp only [dfsSuccs]
        rw [heq]
        exact ih.2 rest _ _ (fun x hx => hl x (List.mem_cons_of_mem _ hx))
          (ih.1 s visited out (hl s (List.mem_cons_self _ _)) hout)

/-- The post-order sequence has no duplicate blocks. -/
theorem post_order_nodup (g : ControlFlowGraph) : g.post_order.Nodup := by
  unfold ControlFlowGraph.post_order
  cases hh : g.blocks.head? with
  | none => exact List.nodup_nil
  | some e =>
    exact ((dfs_inv g (g.blocks.length + g.edges.length + 1)).1 e [] []
      (by intro x hx; simp at hx) List.nodup_nil).2.2.1

/-- Every block of the post-order sequence is reachable from the entry. -/
theorem post_order_sound (g : ControlFlowGraph) :
    ∀ x ∈ g.post_order, ControlFlowGraph.Reach g x := by
  unfold ControlFlowGraph.post_order
  cases hh : g.blocks.head? with
  | none => intro x hx; simp at hx
  | some e =>
    exact (dfs_sound g (g.blocks.length + g.edges.length + 1)).1 e [] []
      (ControlFlowGraph.Reach.entry e hh) (by intro x hx; simp at hx)

/-- With a non-empty block list, the post-order sequence ends with the
entry block (the entry's depth-first exploration finishes last). -/
theorem post_order_last (g : ControlFlowGraph) (e : BlockId)
    (h : g.blocks.head? = some e) :
    ∃ pre, g.post_order = pre ++ [e] := by
  unfold ControlFlowGraph.post_order
  rw [h]
  refine ⟨(dfsSuccs g (g.blocks.length + g.edges.length)
    (g.succs_of e) [e] []).2, ?_⟩
  show (dfsVisit g (g.blocks.length + g.edges.length + 1) e [] []).2 = _
  simp only [dfsVisit, List.not_mem_nil, if_neg (fun h => h)]


/-! ## Properties of the `rpo_nums` rank table -/

/-- A block absent from the tail of the sequence gets no rank entry. -/
theorem buildRpoNumsAux_find?_none (n : Nat) :
    ∀ (i : Nat) (l : List BlockId) (b : BlockId), b ∉ l →
      (buildRpoNumsAux n i l).find? (fun pr => pr.1 == b) = none
  | _, [], _, _ => rfl
  | i, c :: rest, b, hb => by
    have hcb : c ≠ b := fun h => hb (h ▸ List.mem_cons_self _ _)
    simp only [buildRpoNumsAux]
    rw [List.find?_cons_of_neg _ (by simpa using hcb)]
    exact buildRpoNumsAux_find?_none n (i + 1) rest b
      (fun h => hb (List.mem_cons_of_mem _ h))

/-- On a duplicate-free sequence the rank of the `j`-th remaining block is
`n - (i + j)`. -/
theorem buildRpoNumsAux_get (n : Nat) :
    ∀ (i : Nat) (l : List BlockId), l.Nodup →
      ∀ (j : Nat) (hj : j < l.length),
        rpoNumOf (buildRpoNumsAux n i l) (l.get ⟨j, hj⟩) = n - (i + j)
  | i, [], _, j, hj => by simp at hj
  | i, c :: rest, hnd, 0, hj => by
    simp only [buildRpoNumsAux, List.get, rpoNumOf]
    rw [List.find?_cons_of_pos _ (by simp)]
    rfl
  | i, c :: rest, hnd, j + 1, hj => by
    have hcrest : c ∉ rest := (List.nodup_cons.mp hnd).1
    have hrest : rest.Nodup := (List.nodup_cons.mp hnd).2
    have hj' : j < rest.length := Nat.lt_of_succ_lt_succ hj
    have hne : rest.get ⟨j, hj'⟩ ≠ c := by
      intro h
      exact hcrest (h ▸ List.get_mem rest _ _)
    simp only [buildRpoNumsAux, List.get, rpoNumOf]
    rw [List.find?_cons_of_neg _ (by simpa using fun h => hne h.symm)]
    have := buildRpoNumsAux_get n (i + 1) rest hrest j hj'
    simp only [rpoNumOf] at this
    rw [this]
    congr 1
    omega

/-- Modelled from the spec (the graph collaborator's `post_order`) for the
RPO properties of C8: the rank of the `i`-th RPO block is
`total_blocks - i`. -/
theorem rpoNum_get (rpo : List BlockId) (hnd : rpo.Nodup)
    (i : Nat) (hi : i < rpo.length) :
    rpoNumOf (buildRpoNums rpo) (rpo.get ⟨i, hi⟩) = rpo.length - i := by
  have := buildRpoNumsAux_get rpo.length 0 rpo hnd i hi
  simpa using this

/-- C8: the RPO numbering of `compute`.  For a dominator tree produced by
`compute`: (1) the rank of the `i`-th RPO block is `total_blocks - i`; (2)
ranks strictly decrease along the RPO sequence; (3) a non-empty RPO
sequence starts with the entry block; (4) every RPO block is reachable
from the entry (so unreachable blocks never appear); (5) a block absent
from the RPO sequence has no entry in the rank table (it is never assigned
a rank). -/
theorem c8_rpo_numbering (cfg : ControlFlowGraph) (dt0 dt' : DomTree)
    (h : DomTree.compute dt0 cfg = some dt') :
    (∀ (i : Nat) (hi : i < dt'.rpo.length),
       rpoNumOf (buildRpoNums dt'.rpo) (dt'.rpo.get ⟨i, hi⟩) =
         dt'.rpo.length - i) ∧
    (∀ (i j : Nat) (hi : i < dt'.rpo.length) (hj : j < dt'.rpo.length),
       i < j →
       rpoNumOf (buildRpoNums dt'.rpo) (dt'.rpo.get ⟨j, hj⟩) <
         rpoNumOf (buildRpoNums dt'.rpo) (dt'.rpo.get ⟨i, hi⟩)) ∧
    (∀ e, dt'.rpo.head? = some e → cfg.entryBlock = some e) ∧
    (∀ b ∈ dt'.rpo, ControlFlowGraph.Reach cfg b) ∧
    (∀ b, b ∉ dt'.rpo →
       (buildRpoNums dt'.rpo).find? (fun pr => pr.1 == b) = none) := by
  have hrpo : dt'.rpo = cfg.post_order.reverse := by
    unfold DomTree.compute at h
    rcases hcase : cfg.post_order.reverse with _ | ⟨entry, rpoTail⟩
    · rw [hcase] at h
      simp only at h
      cases h
      exact hcase.symm ▸ rfl
    · rw [hcase] at h
      simp only at h
      rcases hloop : DomTree.computeLoop cfg (buildRpoNums (entry :: rpoTail))
          (2 * (entry :: rpoTail).length + 2) rpoTail
          ((entry :: rpoTail).length * (entry :: rpoTail).length + 2)
          (setDom [] entry entry) with _ | doms
      · rw [hloop] at h; exact absurd h (by simp)
      · rw [hloop] at h
        simp only [Option.some.injEq] at h
        rw [← h]
  have hnd : dt'.rpo.Nodup := by
    rw [hrpo]
    exact List.nodup_reverse.mpr (post_order_nodup cfg)
  refine ⟨fun i hi => rpoNum_get dt'.rpo hnd i hi, ?_, ?_, ?_, ?_⟩
  · intro i j hi hj hij
    rw [rpoNum_get dt'.rpo hnd i hi, rpoNum_get dt'.rpo hnd j hj]
    omega
  · intro e he
    rw [hrpo] at he
    cases hh : cfg.blocks.head? with
    | none =>
      have : cfg.post_order = [] := by
        unfold ControlFlowGraph.post_order
        rw [hh]
      rw [this] at he
      simp at he
    | some e' =>
      obtain ⟨pre, hpre⟩ := post_order_last cfg e' hh
      rw [hpre] at he
      simp only [List.reverse_append, List.reverse_cons, List.reverse_nil,
        List.nil_append, List.cons_append, List.head?_cons,
        Option.some.injEq] at he
      rw [ControlFlowGraph.entryBlock, hh, he]
  · intro b hb
    rw [hrpo] at hb
    exact post_order_sound cfg b (List.mem_reverse.mp hb)
  · intro b hb
    exact buildRpoNumsAux_find?_none dt'.rpo.length 0 dt'.rpo b hb

/-- C8 witness: on the diamond graph the second RPO block (block `2`) has
rank `3 = 4 - 1`, and block `3` is reachable. -/
theorem c8_witness :
    rpoNumOf (buildRpoNums dtDiamond.rpo) 2 = 3 ∧
      ControlFlowGraph.Reach cfgDiamond 3 := by
  have h := c8_rpo_numbering cfgDiamond DomTree.new dtDiamond (by decide)
  constructor
  · have h1 := h.1 1 (by decide)
    simpa using h1
  · exact h.2.2.2.1 3 (by decide)

/-! ## C4: when `idom_of` answers "none" -/

/-- C4: after `compute` (a state whose dominator map is defined on every
RPO block and only on RPO blocks), `idom_of b` reports "none" exactly when
`b` is the entry block or `b` is absent from the RPO sequence (i.e.
unreachable); every other RPO block has a defined immediate dominator. -/
theorem c4_idom_of_none_iff (dt : DomTree) (e : BlockId)
    (he : dt.rpo.head? = some e)
    (hdef : ∀ b ∈ dt.rpo, (getDom dt.doms b).isSome)
    (hkeys : ∀ pr ∈ dt.doms, pr.1 ∈ dt.rpo) :
    ∀ b, (dt.idom_of b = some none ↔ (b = e ∨ b ∉ dt.rpo)) ∧
      (b ∈ dt.rpo → b ≠ e → ∃ d, dt.idom_of b = some (some d)) := by
  intro b
  unfold DomTree.idom_of
  rw [he]
  by_cases hb : e = b
  · subst hb
    refine ⟨?_, fun _ hne => absurd rfl hne⟩
    simp
  · simp only [if_neg hb]
    constructor
    · constructor
      · intro h
        have hnone : getDom dt.doms b = none := by simpa using h
        refine Or.inr fun hbr => ?_
        have := hdef b hbr
        rw [hnone] at this
        simp at this
      · rintro (hbe | hbr)
        · exact absurd hbe.symm hb
        · cases hg : getDom dt.doms b with
          | none => rfl
          | some v => exact absurd (hkeys _ (getDom_eq_some_mem hg)) hbr
    · intro hbr _
      have := hdef b hbr
      cases hg : getDom dt.doms b with
      | none => rw [hg] at this; simp at this
      | some v => exact ⟨v, rfl⟩

/-- C4 witness: the theorem instantiated on the diamond graph. -/
theorem c4_witness :
    dtDiamond.idom_of 7 = some none ∧ dtDiamond.idom_of 0 = some none ∧
      ∃ d, dtDiamond.idom_of 3 = some (some d) := by
  have h := c4_idom_of_none_iff dtDiamond 0 rfl (by decide) (by decide)
  exact ⟨(h 7).1.mpr (Or.inr (by decide)), (h 0).1.mpr (Or.inl rfl),
    (h 3).2 (by decide) (by decide)⟩

/-! ## C9: the parent-to-children dominator-tree view -/

/-- Association lookup into a children table (the body of
`children_of`). -/
def childLookup (ch : List (BlockId × List BlockId)) (p : BlockId) :
    List BlockId :=
  ((ch.find? (fun pr => pr.1 == p)).map (fun pr => pr.2)).getD []

/-- `children_of` is the lookup into the `children` field. -/
theorem children_of_eq (t : DominatorTreeTraversable) (p : BlockId) :
    t.children_of p = childLookup t.children p := rfl

/-- How `pushChild` changes a lookup: the parent's list gains the child at
its end, every other list is unchanged. -/
theorem pushChild_childLookup :
    ∀ (ch : List (BlockId × List BlockId)) (parent child p : BlockId),
      childLookup (DominatorTreeTraversable.pushChild ch parent child) p =
        if p = parent then childLookup ch p ++ [child] else childLookup ch p
  | [], parent, child, p => by
    by_cases hp : p = parent
    · subst hp
      simp [DominatorTreeTraversable.pushChild, childLookup, List.find?]
    · have hbe : (parent == p) = false := by
        simpa using fun h => hp h.symm
      simp [DominatorTreeTraversable.pushChild, childLookup, List.find?, hbe, hp]
  | (k, v) :: rest, parent, child, p => by
    by_cases hk : k = parent
    · subst hk
      have hpush : DominatorTreeTraversable.pushChild ((k, v) :: rest) k child =
          (k, v ++ [child]) :: rest := by
        simp [DominatorTreeTraversable.pushChild]
      rw [hpush]
      by_cases hp : p = k
      · subst hp
        simp [childLookup, List.find?]
      · have hbe : (k == p) = false := by
          simpa using fun h => hp h.symm
        simp [childLookup, List.find?, hbe, hp]
    · have hpush : DominatorTreeTraversable.pushChild ((k, v) :: rest) parent child =
          (k, v) :: DominatorTreeTraversable.pushChild rest parent child := by
        simp [DominatorTreeTraversable.pushChild, hk]
      rw [hpush]
      by_cases hp : p = k
      · have hbe : (k == p) = true := by simpa using hp.symm
        have hppar : ¬p = parent := fun h => hk (hp.symm.trans h)
        simp [childLookup, List.find?, hbe, if_neg hppar]
      · have hbe : (k == p) = false := by
          simpa using fun h => hp h.symm
        have hlhs : childLookup ((k, v) ::
            DominatorTreeTraversable.pushChild rest parent child) p =
            childLookup (DominatorTreeTraversable.pushChild rest parent child) p := by
          simp [childLookup, List.find?, hbe]
        have hrhs : childLookup ((k, v) :: rest) p = childLookup rest p := by
          simp [childLookup, List.find?, hbe]
        rw [hlhs, hrhs]
        exact pushChild_childLookup rest parent child p

/-- Reduction of `idom_of` on a state with a known RPO head. -/
theorem idom_of_head (dt : DomTree) {e : BlockId} (he : dt.rpo.head? = some e)
    (b : BlockId) :
    dt.idom_of b = if e = b then some none else some (getDom dt.doms b) := by
  unfold DomTree.idom_of
  rw [he]

/-- Characterization of the traversable `compute` loop: it succeeds on any
state with a non-empty RPO sequence, and appends to each parent's list
exactly the processed blocks whose immediate dominator is that parent, in
processing order. -/
theorem computeAux_spec (dt : DomTree) (e : BlockId) (he : dt.rpo.head? = some e) :
    ∀ (l : List BlockId) (ch : List (BlockId × List BlockId)),
      ∃ ch', DominatorTreeTraversable.computeAux dt l ch = some ch' ∧
        ∀ p, childLookup ch' p = childLookup ch p ++
          l.filter (fun b => dt.idom_of b == some (some p))
  | [], ch => ⟨ch, rfl, fun p => by simp [DominatorTreeTraversable.computeAux]⟩
  | b :: rest, ch => by
    have hv : ∃ v, dt.idom_of b = some v := by
      rw [idom_of_head dt he b]
      by_cases hb : e = b
      · exact ⟨none, by rw [if_pos hb]⟩
      · exact ⟨getDom dt.doms b, by rw [if_neg hb]⟩
    obtain ⟨v, hvb⟩ := hv
    cases v with
    | none =>
      obtain ⟨ch', hch', hform⟩ := computeAux_spec dt e he rest ch
      refine ⟨ch', ?_, ?_⟩
      · simp only [DominatorTreeTraversable.computeAux, hvb]
        exact hch'
      · intro p
        have hfilter : (b :: rest).filter
            (fun b => dt.idom_of b == some (some p)) =
            rest.filter (fun b => dt.idom_of b == some (some p)) := by
          simp [List.filter, hvb]
        rw [hfilter]
        exact hform p
    | some i =>
      obtain ⟨ch', hch', hform⟩ := computeAux_spec dt e he rest
        (DominatorTreeTraversable.pushChild ch i b)
      refine ⟨ch', ?_, ?_⟩
      · simp only [DominatorTreeTraversable.computeAux, hvb]
        exact hch'
      · intro p
        rw [hform p, pushChild_childLookup]
        by_cases hp : p = i
        · subst hp
          have hfilter : (b :: rest).filter
              (fun b => dt.idom_of b == some (some p)) =
              b :: rest.filter (fun b => dt.idom_of b == some (some p)) := by
            simp [List.filter, hvb]
          rw [if_pos rfl, hfilter, List.append_assoc]
          rfl
        · have hne : (dt.idom_of b == some (some p)) = false := by
            simp only [hvb]
            simpa using fun h => hp h.symm
          have hfilter : (b :: rest).filter
              (fun b => dt.idom_of b == some (some p)) =
              rest.filter (fun b => dt.idom_of b == some (some p)) := by
            simp [List.filter, hne]
          rw [if_neg hp, hfilter]

/-- C9: after the traversable `compute` over a dominator tree state (whose
recorded dominators are RPO blocks), `children_of p` lists exactly the RPO
blocks whose immediate dominator is `p`, in RPO order of the children; a
block with no dominator-tree children — in particular any unreachable
block or leaf — gets the empty sequence. -/
theorem c9_children_view (dt : DomTree)
    (hvals : ∀ pr ∈ dt.doms, pr.2 ∈ dt.rpo) :
    ∃ t', DominatorTreeTraversable.compute { children := [] } dt = some t' ∧
      (∀ p, t'.children_of p =
        dt.rpo.filter (fun b => dt.idom_of b == some (some p))) ∧
      (∀ p, p ∉ dt.rpo → t'.children_of p = []) := by
  cases hrpo : dt.rpo with
  | nil =>
    refine ⟨{ children := [] }, ?_, fun p => rfl, fun p _ => rfl⟩
    unfold DominatorTreeTraversable.compute
    rw [hrpo]
    rfl
  | cons e rest =>
    have he : dt.rpo.head? = some e := by rw [hrpo]; rfl
    obtain ⟨ch', hch', hform⟩ := computeAux_spec dt e he dt.rpo []
    have hmain : ∀ p, childLookup ch' p =
        dt.rpo.filter (fun b => dt.idom_of b == some (some p)) := by
      intro p
      rw [hform p]
      rfl
    rw [hrpo] at hmain hch' hvals
    refine ⟨{ children := ch' }, ?_, ?_, ?_⟩
    · unfold DominatorTreeTraversable.compute
      rw [hrpo, hch']
      rfl
    · intro p
      rw [children_of_eq]
      exact hmain p
    · intro p hp
      rw [children_of_eq, hmain p]
      rw [List.filter_eq_nil_iff]
      intro b hb hbeq
      have hios : dt.idom_of b = some (some p) := eq_of_beq hbeq
      have hg : getDom dt.doms b = some p := by
        rw [idom_of_head dt he b] at hios
        by_cases hbe : e = b
        · rw [if_pos hbe] at hios; simp at hios
        · rw [if_neg hbe] at hios
          simpa using hios
      exact hp (hvals _ (getDom_eq_some_mem hg))

/-- C9 witness: on the diamond graph the entry's children are `[2, 1, 3]`
(the RPO order of the children) and a leaf's list is empty. -/
theorem c9_witness :
    ∃ t', DominatorTreeTraversable.compute { children := [] } dtDiamond = some t' ∧
      t'.children_of 0 = [2, 1, 3] ∧ t'.children_of 1 = [] := by
  obtain ⟨t', h1, h2, -⟩ := c9_children_view dtDiamond (by decide)
  refine ⟨t', h1, ?_, ?_⟩
  · rw [h2 0]; decide
  · rw [h2 1]; decide

/-! ## Structural facts about frontier insertion and the `compute_df` walks -/

/-- Membership in an ordered-set insertion. -/
theorem mem_insertSorted (m : BlockId) :
    ∀ (l : List BlockId) (x : BlockId), x ∈ insertSorted m l ↔ x = m ∨ x ∈ l
  | [], x => by simp [insertSorted]
  | y :: ys, x => by
    unfold insertSorted
    by_cases h1 : m < y
    · simp only [if_pos h1, List.mem_cons]
    · by_cases h2 : m = y
      · simp only [if_neg h1, if_pos h2, List.mem_cons]
        subst h2
        tauto
      · simp only [if_neg h1, if_neg h2, List.mem_cons, mem_insertSorted m ys x]
        tauto

/-- How an insertion changes a frontier lookup. -/
theorem frontiers_insertAux :
    ∀ (sets : List (BlockId × List BlockId)) (o m q : BlockId),
      DFSet.frontiers { sets := DFSet.insertAux o m sets } q =
        if q = o then insertSorted m (DFSet.frontiers { sets := sets } q)
        else DFSet.frontiers { sets := sets } q
  | [], o, m, q => by
    by_cases hq : q = o
    · subst hq
      simp [DFSet.insertAux, DFSet.frontiers, List.find?, insertSorted]
    · have hbe : (o == q) = false := by
        simpa using fun h => hq h.symm
      simp [DFSet.insertAux, DFSet.frontiers, List.find?, hbe, hq]
  | (k, v) :: rest, o, m, q => by
    by_cases hk : k = o
    · subst hk
      have hins : DFSet.insertAux k m ((k, v) :: rest) =
          (k, insertSorted m v) :: rest := by
        simp [DFSet.insertAux]
      rw [hins]
      by_cases hq : q = k
      · have hbe : (k == q) = true := by simpa using hq.symm
        simp [DFSet.frontiers, List.find?, hbe, hq]
      · have hbe : (k == q) = false := by
          simpa using fun h => hq h.symm
        simp [DFSet.frontiers, List.find?, hbe, hq]
    · have hins : DFSet.insertAux o m ((k, v) :: rest) =
          (k, v) :: DFSet.insertAux o m rest := by
        simp [DFSet.insertAux, hk]
      rw [hins]
      by_cases hq : q = k
      · have hbe : (k == q) = true := by simpa using hq.symm
        have hqo : ¬q = o := fun h => hk (hq.symm.trans h)
        simp [DFSet.frontiers, List.find?, hbe, if_neg hqo]
      · have hbe : (k == q) = false := by
          simpa using fun h => hq h.symm
        have hl : DFSet.frontiers { sets := (k, v) :: DFSet.insertAux o m rest } q =
            DFSet.frontiers { sets := DFSet.insertAux o m rest } q := by
          simp [DFSet.frontiers, List.find?, hbe]
        have hr : DFSet.frontiers { sets := (k, v) :: rest } q =
            DFSet.frontiers { sets := rest } q := by
          simp [DFSet.frontiers, List.find?, hbe]
        rw [hl, hr]
        exact frontiers_insertAux rest o m q

/-- Membership after `DFSet.insert`. -/
theorem mem_frontiers_insert (df : DFSet) (o m q c : BlockId) :
    c ∈ (df.insert o m).frontiers q ↔
      (q = o ∧ (c = m ∨ c ∈ df.frontiers q)) ∨ (q ≠ o ∧ c ∈ df.frontiers q) := by
  show c ∈ DFSet.frontiers { sets := DFSet.insertAux o m df.sets } q ↔ _
  rw [frontiers_insertAux df.sets o m q]
  by_cases hq : q = o
  · rw [if_pos hq, mem_insertSorted]
    have : DFSet.frontiers { sets := df.sets } q = df.frontiers q := rfl
    rw [this]
    tauto
  · rw [if_neg hq]
    have : DFSet.frontiers { sets := df.sets } q = df.frontiers q := rfl
    rw [this]
    tauto

/-- Every entry the per-predecessor walk adds records the walked block as
member and a reachable block as owner. -/
theorem dfWalk_members (dt : DomTree) (block : BlockId) :
    ∀ (fuel : Nat) (runner : BlockId) (df df' : DFSet),
      DomTree.dfWalk dt block fuel runner df = some df' →
      ∀ q c, c ∈ df'.frontiers q →
        c ∈ df.frontiers q ∨ (c = block ∧ dt.is_reachable q = some true)
  | 0, runner, df, df', h => by simp [DomTree.dfWalk] at h
  | fuel + 1, runner, df, df', h => by
    unfold DomTree.dfWalk at h
    by_cases h1 : some runner = getDom dt.doms block
    · rw [if_pos h1] at h
      cases h
      exact fun q c hc => Or.inl hc
    · rw [if_neg h1] at h
      cases hr : dt.is_reachable runner with
      | none => rw [hr] at h; exact absurd h (by simp)
      | some reach =>
        rw [hr] at h
        cases reach with
        | false =>
          cases h
          exact fun q c hc => Or.inl hc
        | true =>
          cases hg : getDom dt.doms runner with
          | none => rw [hg] at h; exact absurd h (by simp)
          | some d =>
            rw [hg] at h
            intro q c hc
            rcases dfWalk_members dt block fuel d (df.insert runner block) df'
                h q c hc with hmem | hdone
            · rcases (mem_frontiers_insert df runner block q c).mp hmem with
                ⟨hqr, hcm | hcm⟩ | ⟨-, hcm⟩
              · exact Or.inr ⟨hcm, hqr ▸ hr⟩
              · exact Or.inl hcm
              · exact Or.inl hcm
            · exact Or.inr hdone

/-- Every entry the per-block predecessor loop adds records the processed
block as member and a reachable block as owner. -/
theorem dfPreds_members (dt : DomTree) (block : BlockId) :
    ∀ (preds : List BlockId) (df df' : DFSet),
      DomTree.dfPreds dt block preds df = some df' →
      ∀ q c, c ∈ df'.frontiers q →
        c ∈ df.frontiers q ∨ (c = block ∧ dt.is_reachable q = some true)
  | [], df, df', h => by
    cases h
    exact fun q c hc => Or.inl hc
  | pred :: rest, df, df', h => by
    unfold DomTree.dfPreds at h
    cases hw : DomTree.dfWalk dt block (dt.rpo.length + 1) pred df with
    | none => rw [hw] at h; exact absurd h (by simp)
    | some df1 =>
      rw [hw] at h
      intro q c hc
      rcases dfPreds_members dt block rest df1 df' h q c hc with hmem | hdone
      · exact dfWalk_members dt block _ pred df df1 hw q c hmem
      · exact Or.inr hdone

/-- Every entry `compute_df`'s block loop adds has a member drawn from the
processed list with at least two predecessors, owned by a reachable
block. -/
theorem dfBlocks_members (dt : DomTree) (cfg : ControlFlowGraph) :
    ∀ (l : List BlockId) (df df' : DFSet),
      DomTree.dfBlocks dt cfg l df = some df' →
      ∀ q c, c ∈ df'.frontiers q →
        c ∈ df.frontiers q ∨
          (c ∈ l ∧ 2 ≤ cfg.pred_num_of c ∧ dt.is_reachable q = some true)
  | [], df, df', h => by
    cases h
    exact fun q c hc => Or.inl hc
  | block :: rest, df, df', h => by
    unfold DomTree.dfBlocks at h
    by_cases hnum : cfg.pred_num_of block < 2
    · rw [if_pos hnum] at h
      intro q c hc
      rcases dfBlocks_members dt cfg rest df df' h q c hc with hmem | ⟨hcl, hrest⟩
      · exact Or.inl hmem
      · exact Or.inr ⟨List.mem_cons_of_mem _ hcl, hrest⟩
    · rw [if_neg hnum] at h
      cases hp : DomTree.dfPreds dt block (cfg.preds_of block) df with
      | none => rw [hp] at h; exact absurd h (by simp)
      | some df1 =>
        rw [hp] at h
        intro q c hc
        rcases dfBlocks_members dt cfg rest df1 df' h q c hc with hmem | ⟨hcl, hrest⟩
        · rcases dfPreds_members dt block _ df df1 hp q c hmem with hmem' | ⟨hcb, hq⟩
          · exact Or.inl hmem'
          · exact Or.inr ⟨hcb ▸ List.mem_cons_self _ _,
              hcb ▸ Nat.le_of_not_lt hnum, hq⟩
        · exact Or.inr ⟨List.mem_cons_of_mem _ hcl, hrest⟩

/-- The frontier set `compute_df` builds for `cfgDiamond`. -/
def dfDiamond : DFSet := { sets := [(1, [3]), (2, [3])] }

/-- A graph whose entry has two predecessors: two loops through the entry,
`0 → 1 → 0` and `0 → 2 → 0`. -/
def cfgLoopEntry : ControlFlowGraph :=
  { blocks := [0, 1, 2], edges := [(0, 1), (1, 0), (0, 2), (2, 0)] }

/-- The tree `compute` builds for `cfgLoopEntry`. -/
def dtLoopEntry : DomTree := { doms := [(0, 0), (2, 0), (1, 0)], rpo := [0, 2, 1] }

/-- The frontier set `compute_df` builds for `cfgLoopEntry`: the entry `0`
enters the frontiers of `1` and of `2`. -/
def dfLoopEntry : DFSet := { sets := [(1, [0]), (2, [0])] }

/-! ## C10: implicit invariants of the computed frontier sets -/

/-- C10: after `compute` and `compute_df`, every member of any frontier set
is an RPO block (reachable from the entry) with at least two predecessors,
and every block owning a non-empty frontier set is itself an RPO block
(and not the entry). -/
theorem c10_frontier_invariants (cfg : ControlFlowGraph) (dt : DomTree)
    (e : BlockId) (he : dt.rpo.head? = some e)
    (hdef : ∀ b ∈ dt.rpo, (getDom dt.doms b).isSome)
    (hkeys : ∀ pr ∈ dt.doms, pr.1 ∈ dt.rpo)
    (df : DFSet) (hdf : dt.compute_df cfg = some df) :
    (∀ q c, df.in_frontier_of c q = true →
      c ∈ dt.rpo ∧ 2 ≤ cfg.pred_num_of c ∧ q ∈ dt.rpo ∧ q ≠ e) ∧
    (∀ q, df.frontier_num_of q ≠ 0 → q ∈ dt.rpo ∧ q ≠ e) := by
  have hmain : ∀ q c, c ∈ df.frontiers q →
      c ∈ dt.rpo ∧ 2 ≤ cfg.pred_num_of c ∧ q ∈ dt.rpo ∧ q ≠ e := by
    intro q c hc
    rcases dfBlocks_members dt cfg dt.rpo { sets := [] } df hdf q c hc with
      hmem | ⟨hcl, hnum, hq⟩
    · exact absurd hmem (by simp [DFSet.frontiers, List.find?])
    · have hqr := (is_reachable_spec dt e he hdef hkeys q).mp hq
      exact ⟨hcl, hnum, hqr.1, hqr.2⟩
  constructor
  · intro q c hc
    exact hmain q c (of_decide_eq_true hc)
  · intro q hq
    have hne : df.frontiers q ≠ [] := by
      intro h
      exact hq (by simp [DFSet.frontier_num_of, h])
    obtain ⟨c, hc⟩ := List.exists_mem_of_ne_nil _ hne
    exact (hmain q c hc).2.2

/-- C10 witness: the theorem instantiated on the diamond graph. -/
theorem c10_witness :
    3 ∈ dtDiamond.rpo ∧ 2 ≤ cfgDiamond.pred_num_of 3 ∧
      1 ∈ dtDiamond.rpo ∧ (1 : BlockId) ≠ 0 := by
  have h := c10_frontier_invariants cfgDiamond dtDiamond 0 rfl (by decide)
    (by decide) dfDiamond (by decide)
  exact h.1 1 3 (by decide)

/-! ## C6: low-degree blocks and unreachable predecessors in `compute_df` -/

/-- C6: a block with fewer than two predecessors is never added to any
frontier set (every member of a computed frontier has at least two
predecessors), and a walk whose cursor is an unreachable predecessor stops
at once, leaving the frontier sets untouched. -/
theorem c6_unreachable_walk_stops (cfg : ControlFlowGraph) (dt : DomTree)
    (df : DFSet) (hdf : dt.compute_df cfg = some df) :
    (∀ q c, df.in_frontier_of c q = true → 2 ≤ cfg.pred_num_of c) ∧
    (∀ (block pred : BlockId) (df0 : DFSet) (fuel : Nat),
      dt.is_reachable pred = some false →
      DomTree.dfWalk dt block (fuel + 1) pred df0 = some df0) := by
  constructor
  · intro q c hc
    rcases dfBlocks_members dt cfg dt.rpo { sets := [] } df hdf q c
        (of_decide_eq_true hc) with hmem | ⟨-, hnum, -⟩
    · exact absurd hmem (by simp [DFSet.frontiers, List.find?])
    · exact hnum
  · intro block pred df0 fuel hpred
    unfold DomTree.dfWalk
    by_cases h1 : some pred = getDom dt.doms block
    · rw [if_pos h1]
    · rw [if_neg h1, hpred]

/-- C6 witness: on the diamond graph, the frontier member `3` has two
predecessors, and a walk from the unreachable block `7` changes nothing. -/
theorem c6_witness :
    2 ≤ cfgDiamond.pred_num_of 3 ∧
      DomTree.dfWalk dtDiamond 5 1 7 { sets := [] } = some { sets := [] } := by
  have h := c6_unreachable_walk_stops cfgDiamond dtDiamond dfDiamond (by decide)
  exact ⟨h.1 1 3 (by decide), h.2 5 7 { sets := [] } 0 (by decide)⟩

/-! ## Dominator chains on a converged tree state

The remaining claims quantify over the state `compute` leaves behind.  We
package the invariants that state satisfies — dominator map defined exactly
on the RPO blocks with RPO values, entry mapped to itself, and ranks
strictly increasing toward the entry — and derive the behaviour of the
chain-walking queries from them. -/

/-- The rank of a block in a dominator tree state. -/
def rankOf (dt : DomTree) (b : BlockId) : Nat :=
  rpoNumOf (buildRpoNums dt.rpo) b

/-- Invariants of a dominator tree state established by `compute`: the RPO
sequence is duplicate-free and headed by the entry `e`; the dominator map
is defined on every RPO block and only on RPO blocks, with RPO values; the
entry maps to itself; and every other block's dominator has a strictly
larger rank (sits strictly earlier in RPO order). -/
structure GoodTree (dt : DomTree) (e : BlockId) : Prop where
  he : dt.rpo.head? = some e
  hnd : dt.rpo.Nodup
  hdef : ∀ b ∈ dt.rpo, (getDom dt.doms b).isSome
  hkeys : ∀ pr ∈ dt.doms, pr.1 ∈ dt.rpo
  hvals : ∀ pr ∈ dt.doms, pr.2 ∈ dt.rpo
  hent : getDom dt.doms e = some e
  hup : ∀ pr ∈ dt.doms, pr.1 ≠ e → rankOf dt pr.1 < rankOf dt pr.2

/-- Values stored in the rank table never exceed the block count. -/
theorem buildRpoNumsAux_val_le (n : Nat) :
    ∀ (i : Nat) (l : List BlockId) (pr : BlockId × Nat),
      pr ∈ buildRpoNumsAux n i l → pr.2 ≤ n
  | _, [], _, h => by simp [buildRpoNumsAux] at h
  | i, b :: rest, pr, h => by
    unfold buildRpoNumsAux at h
    rcases List.mem_cons.mp h with h | h
    · subst h
      exact Nat.sub_le n i
    · exact buildRpoNumsAux_val_le n (i + 1) rest pr h

/-- Ranks are bounded by the number of RPO blocks. -/
theorem rankOf_le (dt : DomTree) (b : BlockId) : rankOf dt b ≤ dt.rpo.length := by
  unfold rankOf rpoNumOf
  cases hf : (buildRpoNums dt.rpo).find? (fun pr => pr.1 == b) with
  | none => simp
  | some pr =>
    have := buildRpoNumsAux_val_le dt.rpo.length 0 dt.rpo pr
      (find?_key_spec hf).1
    simpa using this

/-- RPO blocks have positive rank. -/
theorem rankOf_pos (dt : DomTree) (hnd : dt.rpo.Nodup) {b : BlockId}
    (hb : b ∈ dt.rpo) : 1 ≤ rankOf dt b := by
  obtain ⟨⟨i, hi⟩, hget⟩ := List.mem_iff_get.mp hb
  have := rpoNum_get dt.rpo hnd i hi
  rw [hget] at this
  unfold rankOf
  rw [this]
  omega

/-- A non-empty RPO sequence is its head consed on its tail. -/
theorem rpo_cons_of_head {dt : DomTree} {e : BlockId}
    (he : dt.rpo.head? = some e) : ∃ tl, dt.rpo = e :: tl := by
  cases h : dt.rpo with
  | nil => rw [h] at he; simp at he
  | cons a l =>
    rw [h] at he
    simp only [List.head?_cons, Option.some.injEq] at he
    exact ⟨l, by rw [he]⟩

/-- The entry block has the maximal rank. -/
theorem rankOf_entry (dt : DomTree) {e : BlockId}
    (he : dt.rpo.head? = some e) : rankOf dt e = dt.rpo.length := by
  obtain ⟨tl, hc⟩ := rpo_cons_of_head he
  rw [rankOf, hc]
  simp [rpoNumOf, buildRpoNums, buildRpoNumsAux, List.find?]

/-- Trichotomy for `idom_of` on a good state: the entry and the blocks
outside RPO report "none"; every other RPO block steps to a strictly
higher-ranked RPO block. -/
theorem idom_cases {dt : DomTree} {e : BlockId} (hg : GoodTree dt e)
    (x : BlockId) :
    (x = e ∧ dt.idom_of x = some none) ∨
    (x ∉ dt.rpo ∧ x ≠ e ∧ dt.idom_of x = some none) ∨
    (∃ d, x ∈ dt.rpo ∧ x ≠ e ∧ dt.idom_of x = some (some d) ∧
      getDom dt.doms x = some d ∧ d ∈ dt.rpo ∧ rankOf dt x < rankOf dt d) := by
  by_cases hx : x = e
  · exact Or.inl ⟨hx, by rw [idom_of_head dt hg.he x, if_pos hx.symm]⟩
  · have hio : dt.idom_of x = some (getDom dt.doms x) := by
      rw [idom_of_head dt hg.he x, if_neg (fun h => hx h.symm)]
    by_cases hmem : x ∈ dt.rpo
    · have hs := hg.hdef x hmem
      cases hgd : getDom dt.doms x with
      | none => rw [hgd] at hs; simp at hs
      | some d =>
        refine Or.inr (Or.inr ⟨d, hmem, hx, ?_, rfl,
          hg.hvals _ (getDom_eq_some_mem hgd),
          hg.hup (x, d) (getDom_eq_some_mem hgd) hx⟩)
        rw [hio, hgd]
    · have hgd : getDom dt.doms x = none := by
        cases hgd : getDom dt.doms x with
        | none => rfl
        | some d => exact absurd (hg.hkeys _ (getDom_eq_some_mem hgd)) hmem
      exact Or.inr (Or.inl ⟨hmem, hx, by rw [hio, hgd]⟩)

/-- The successive strict dominators of a block, as walked by
`strictly_dominates` and `compute_df`: follow `idom_of` until it reports
"none" (or fuel runs out). -/
def climb (dt : DomTree) : Nat → BlockId → List BlockId
  | 0, _ => []
  | fuel + 1, x =>
    match dt.idom_of x with
    | some (some d) => d :: climb dt fuel d
    | _ => []

/-- The dominator chain of a block: itself followed by its strict
dominators, with always-sufficient fuel. -/
def chainOf (dt : DomTree) (x : BlockId) : List BlockId :=
  x :: climb dt (dt.rpo.length + 1) x

theorem climb_succ_stop {dt : DomTree} {x : BlockId} (fuel : Nat)
    (h : dt.idom_of x = some none) : climb dt (fuel + 1) x = [] := by
  simp [climb, h]

theorem climb_succ_step {dt : DomTree} {x d : BlockId} (fuel : Nat)
    (h : dt.idom_of x = some (some d)) :
    climb dt (fuel + 1) x = d :: climb dt fuel d := by
  simp [climb, h]

/-- The blocks on a climb are RPO blocks of strictly larger rank, and a
non-trivial climb starts at a non-entry RPO block. -/
theorem climb_mem {dt : DomTree} {e : BlockId} (hg : GoodTree dt e) :
    ∀ (fuel : Nat) (x y : BlockId), y ∈ climb dt fuel x →
      x ∈ dt.rpo ∧ x ≠ e ∧ y ∈ dt.rpo ∧ rankOf dt x < rankOf dt y
  | 0, x, y, h => by simp [climb] at h
  | fuel + 1, x, y, h => by
    rcases idom_cases hg x with ⟨hx, hio⟩ | ⟨_, _, hio⟩ |
        ⟨d, hmem, hx, hio, -, hd, hrank⟩
    · rw [climb_succ_stop fuel hio] at h
      simp at h
    · rw [climb_succ_stop fuel hio] at h
      simp at h
    · rw [climb_succ_step fuel hio] at h
      rcases List.mem_cons.mp h with h | h
      · exact ⟨hmem, hx, h ▸ hd, h ▸ hrank⟩
      · obtain ⟨-, -, hy, hr⟩ := climb_mem hg fuel d y h
        exact ⟨hmem, hx, hy, Nat.lt_trans hrank hr⟩

/-- Any two sufficient fuels produce the same climb. -/
theorem climb_stable {dt : DomTree} {e : BlockId} (hg : GoodTree dt e) :
    ∀ (k x : BlockId) (fuel : Nat),
      dt.rpo.length + 1 - rankOf dt x ≤ k →
      dt.rpo.length < fuel + rankOf dt x →
      climb dt fuel x = climb dt (dt.rpo.length + 1) x := by
  intro k
  induction k with
  | zero =>
    intro x fuel hk _
    exfalso
    have h1 := rankOf_le dt x
    have hk' : dt.rpo.length + 1 - rankOf dt x ≤ 0 := hk
    omega
  | succ k ih =>
    intro x fuel hk hfuel
    have hxle := rankOf_le dt x
    obtain ⟨f, rfl⟩ : ∃ f, fuel = f + 1 := ⟨fuel - 1, by omega⟩
    rcases idom_cases hg x with ⟨hx, hio⟩ | ⟨_, _, hio⟩ |
        ⟨d, hmem, hx, hio, -, hd, hrank⟩
    · rw [climb_succ_stop _ hio, climb_succ_stop _ hio]
    · rw [climb_succ_stop _ hio, climb_succ_stop _ hio]
    · rw [climb_succ_step f hio, climb_succ_step dt.rpo.length hio]
      have hdle := rankOf_le dt d
      have hk' : dt.rpo.length + 1 - rankOf dt d ≤ k := by omega
      rw [ih d f hk' (by omega), ih d dt.rpo.length hk' (by omega)]

/-- Unfolding a chain one step: below a non-entry RPO block sits the chain
of its recorded dominator. -/
theorem chain_step {dt : DomTree} {e : BlockId} (hg : GoodTree dt e)
    {x d : BlockId} (hio : dt.idom_of x = some (some d)) (hd : d ∈ dt.rpo) :
    chainOf dt x = x :: chainOf dt d := by
  unfold chainOf
  rw [climb_succ_step dt.rpo.length hio]
  rw [climb_stable hg (dt.rpo.length + 1) d dt.rpo.length
    (by omega) (by have := rankOf_pos dt hg.hnd hd; omega)]

/-- A block whose `idom_of` reports "none" has the one-element chain. -/
theorem chain_stop {dt : DomTree} {x : BlockId}
    (hio : dt.idom_of x = some none) : chainOf dt x = [x] := by
  unfold chainOf
  rw [climb_succ_stop dt.rpo.length hio]

/-- Blocks on a chain other than its start are higher-ranked RPO blocks. -/
theorem chain_mem_rank {dt : DomTree} {e : BlockId} (hg : GoodTree dt e)
    {x y : BlockId} (h : y ∈ chainOf dt x) :
    y = x ∨ (y ∈ dt.rpo ∧ rankOf dt x < rankOf dt y) := by
  rcases List.mem_cons.mp h with h | h
  · exact Or.inl h
  · obtain ⟨-, -, hy, hr⟩ := climb_mem hg _ x y h
    exact Or.inr ⟨hy, hr⟩

/-- The entry block sits on the chain of every RPO block. -/
theorem entry_mem_chain {dt : DomTree} {e : BlockId} (hg : GoodTree dt e) :
    ∀ (k : Nat) (x : BlockId), dt.rpo.length + 1 - rankOf dt x ≤ k →
      x ∈ dt.rpo → e ∈ chainOf dt x := by
  intro k
  induction k with
  | zero =>
    intro x hk hx
    exfalso
    have h1 := rankOf_le dt x
    have hk' : dt.rpo.length + 1 - rankOf dt x ≤ 0 := hk
    omega
  | succ k ih =>
    intro x hk hx
    rcases idom_cases hg x with ⟨hx', -⟩ | ⟨hmem, -, -⟩ |
        ⟨d, hmem, hx', hio, -, hd, hrank⟩
    · rw [hx']
      exact List.mem_cons_self _ _
    · exact absurd hx hmem
    · rw [chain_step hg hio hd]
      have hdle := rankOf_le dt d
      exact List.mem_cons_of_mem _ (ih d (by omega) hd)

/-- Chain splitting: any block on a chain carries its own chain as the
suffix from its first occurrence, and everything before it has strictly
smaller rank. -/
theorem chain_split {dt : DomTree} {e : BlockId} (hg : GoodTree dt e) :
    ∀ (k : Nat) (x y : BlockId), dt.rpo.length + 1 - rankOf dt x ≤ k →
      y ∈ chainOf dt x →
      ∃ pre, chainOf dt x = pre ++ chainOf dt y ∧
        ∀ z ∈ pre, rankOf dt z < rankOf dt y := by
  intro k
  induction k with
  | zero =>
    intro x y hk hy
    by_cases hxy : y = x
    · exact ⟨[], by rw [hxy, List.nil_append], by intro z hz; simp at hz⟩
    · exfalso
      rcases chain_mem_rank hg hy with h | ⟨hyr, -⟩
      · exact hxy h
      · have h1 := rankOf_le dt x
        have h2 := rankOf_pos dt hg.hnd hyr
        have hk' : dt.rpo.length + 1 - rankOf dt x ≤ 0 := hk
        rcases List.mem_cons.mp hy with h | h
        · exact hxy h
        · obtain ⟨hxr, -, -, -⟩ := climb_mem hg _ x y h
          have := rankOf_pos dt hg.hnd hxr
          omega
  | succ k ih =>
    intro x y hk hy
    by_cases hxy : y = x
    · exact ⟨[], by rw [hxy, List.nil_append], by intro z hz; simp at hz⟩
    · have hyc : y ∈ climb dt (dt.rpo.length + 1) x := by
        rcases List.mem_cons.mp hy with h | h
        · exact absurd h hxy
        · exact h
      obtain ⟨hxr, hxe, hyr, hxy_rank⟩ := climb_mem hg _ x y hyc
      rcases idom_cases hg x with ⟨hx', -⟩ | ⟨hmem, -, -⟩ |
          ⟨d, hmem, hx', hio, -, hd, hrank⟩
      · exact absurd hx' hxe
      · exact absurd hxr hmem
      · have hchain := chain_step hg hio hd
        have hyd : y ∈ chainOf dt d := by
          have : chainOf dt x = x :: chainOf dt d := hchain
          rw [this] at hy
          rcases List.mem_cons.mp hy with h | h
          · exact absurd h hxy
          · exact h
        have hdle := rankOf_le dt d
        obtain ⟨pre, hpre, hranks⟩ := ih d y (by omega) hyd
        refine ⟨x :: pre, ?_, ?_⟩
        · rw [hchain, hpre]
          rfl
        · intro z hz
          rcases List.mem_cons.mp hz with h | h
          · rw [h]
            exact hxy_rank
          · exact hranks z h

/-- A block on a chain carries the whole of its own chain inside it. -/
theorem chain_trans {dt : DomTree} {e : BlockId} (hg : GoodTree dt e)
    {x y z : BlockId} (hy : y ∈ chainOf dt x) (hz : z ∈ chainOf dt y) :
    z ∈ chainOf dt x := by
  obtain ⟨pre, hpre, -⟩ := chain_split hg (dt.rpo.length + 1) x y (by omega) hy
  rw [hpre]
  exact List.mem_append_right _ hz

/-- Fuel-indexed bound on climb lengths. -/
theorem climb_len {dt : DomTree} {e : BlockId} (hg : GoodTree dt e) :
    ∀ (fuel : Nat) (x : BlockId),
      climb dt fuel x = [] ∨
        (climb dt fuel x).length + rankOf dt x ≤ dt.rpo.length
  | 0, x => Or.inl rfl
  | fuel + 1, x => by
    rcases idom_cases hg x with ⟨-, hio⟩ | ⟨-, -, hio⟩ |
        ⟨d, hmem, hx, hio, -, hd, hrank⟩
    · exact Or.inl (climb_succ_stop fuel hio)
    · exact Or.inl (climb_succ_stop fuel hio)
    · rw [climb_succ_step fuel hio]
      refine Or.inr ?_
      have hdle := rankOf_le dt d
      rcases climb_len hg fuel d with h | h
      · rw [h]
        simpa using by omega
      · simp only [List.length_cons]
        omega

/-- Chains of RPO blocks have at most `rpo.length` blocks. -/
theorem chain_len {dt : DomTree} {e : BlockId} (hg : GoodTree dt e)
    {x : BlockId} (hx : x ∈ dt.rpo) :
    (chainOf dt x).length ≤ dt.rpo.length := by
  have hpos := rankOf_pos dt hg.hnd hx
  unfold chainOf
  rcases climb_len hg (dt.rpo.length + 1) x with h | h
  · rw [h]
    have : (1 : Nat) ≤ dt.rpo.length := by
      obtain ⟨⟨i, hi⟩, -⟩ := List.mem_iff_get.mp hx
      omega
    simpa using this
  · simp only [List.length_cons]
    omega

/-- With sufficient fuel the strict-dominance walk terminates and decides
membership in the climb. -/
theorem sdomWalk_eq {dt : DomTree} {e : BlockId} (hg : GoodTree dt e) :
    ∀ (fuel : Nat) (p x : BlockId), dt.rpo.length < fuel + rankOf dt x →
      DomTree.sdomWalk dt fuel p x = some (decide (p ∈ climb dt fuel x))
  | 0, p, x, hfuel => by
    have := rankOf_le dt x
    omega
  | fuel + 1, p, x, hfuel => by
    rcases idom_cases hg x with ⟨-, hio⟩ | ⟨-, -, hio⟩ |
        ⟨d, hmem, hx, hio, -, hd, hrank⟩
    · rw [climb_succ_stop fuel hio]
      simp [DomTree.sdomWalk, hio]
    · rw [climb_succ_stop fuel hio]
      simp [DomTree.sdomWalk, hio]
    · rw [climb_succ_step fuel hio]
      by_cases hdp : d = p
      · simp [DomTree.sdomWalk, hio, hdp]
      · have hrec := sdomWalk_eq hg fuel p d
          (by have := rankOf_le dt d; omega)
        simp [DomTree.sdomWalk, hio, hdp, hrec,
          show ¬p = d from fun h => hdp h.symm]

/-- `strictly_dominates` on a good state decides membership in the strict
chain. -/
theorem strictly_dominates_eq {dt : DomTree} {e : BlockId} (hg : GoodTree dt e)
    (p x : BlockId) :
    dt.strictly_dominates p x =
      some (decide (p ∈ climb dt (dt.rpo.length + 1) x)) :=
  sdomWalk_eq hg (dt.rpo.length + 1) p x (by omega)

/-- `strictly_dominates` answers `true` exactly on the strict chain. -/
theorem strictly_dominates_iff {dt : DomTree} {e : BlockId} (hg : GoodTree dt e)
    (p x : BlockId) :
    dt.strictly_dominates p x = some true ↔
      p ∈ climb dt (dt.rpo.length + 1) x := by
  rw [strictly_dominates_eq hg p x]
  simp

/-- `dominates` answers `true` exactly on the chain. -/
theorem dominates_iff {dt : DomTree} {e : BlockId} (hg : GoodTree dt e)
    (p x : BlockId) :
    dt.dominates p x = some true ↔ p ∈ chainOf dt x := by
  unfold DomTree.dominates chainOf
  by_cases hpx : p = x
  · simp [hpx]
  · rw [if_neg hpx, strictly_dominates_eq hg p x]
    simp [hpx]

/-- What a successful `find?` yields, for an arbitrary predicate. -/
theorem find?_spec {α : Type} (f : α → Bool) :
    ∀ {l : List α} {x : α}, l.find? f = some x → x ∈ l ∧ f x = true
  | [], _, h => by simp at h
  | a :: rest, x, h => by
    cases hf : f a with
    | true =>
      rw [List.find?_cons_of_pos _ hf] at h
      cases h
      exact ⟨List.mem_cons_self _ _, hf⟩
    | false =>
      rw [List.find?_cons_of_neg _ (by simp [hf])] at h
      have := find?_spec f h
      exact ⟨List.mem_cons_of_mem _ this.1, this.2⟩

/-- A member satisfying the predicate makes `find?` succeed. -/
theorem find?_of_mem {α : Type} (f : α → Bool) :
    ∀ {l : List α} {x : α}, x ∈ l → f x = true → ∃ y, l.find? f = some y
  | [], x, hx, _ => by simp at hx
  | a :: rest, x, hx, hfx => by
    cases hf : f a with
    | true => exact ⟨a, List.find?_cons_of_pos _ hf⟩
    | false =>
      have hxa : x ≠ a := fun h => by rw [h, hf] at hfx; cases hfx
      have hxr : x ∈ rest := by
        rcases List.mem_cons.mp hx with h | h
        · exact absurd h hxa
        · exact h
      obtain ⟨y, hy⟩ := find?_of_mem f hxr hfx
      exact ⟨y, by rw [List.find?_cons_of_neg _ (by simp [hf]), hy]⟩

/-- The result of `intersect` lies on the chains of both cursors. -/
theorem intersect_mem {dt : DomTree} {e : BlockId} (hg : GoodTree dt e) :
    ∀ (ifuel : Nat) (x y r : BlockId),
      DomTree.intersect dt.doms (buildRpoNums dt.rpo) ifuel x y = some r →
      r ∈ chainOf dt x ∧ r ∈ chainOf dt y
  | 0, x, y, r, h => by simp [DomTree.intersect] at h
  | ifuel + 1, x, y, r, h => by
    unfold DomTree.intersect at h
    by_cases hxy : x = y
    · rw [if_pos hxy] at h
      simp only [Option.some.injEq] at h
      subst hxy
      rw [← h]
      exact ⟨List.mem_cons_self _ _, List.mem_cons_self _ _⟩
    · rw [if_neg hxy] at h
      by_cases h1 : rpoNumOf (buildRpoNums dt.rpo) x < rpoNumOf (buildRpoNums dt.rpo) y
      · rw [if_pos h1] at h
        cases hgx : getDom dt.doms x with
        | none => rw [hgx] at h; exact absurd h (by simp)
        | some d =>
          rw [hgx] at h
          have hxrpo : x ∈ dt.rpo := hg.hkeys _ (getDom_eq_some_mem hgx)
          have hxe : x ≠ e := by
            intro hxe
            subst hxe
            have hle := rankOf_le dt y
            have : rankOf dt x = dt.rpo.length := rankOf_entry dt hg.he
            have h1' : rankOf dt x < rankOf dt y := h1
            omega
          have hio : dt.idom_of x = some (some d) := by
            rw [idom_of_head dt hg.he x, if_neg (fun hh => hxe hh.symm), hgx]
          have hd : d ∈ dt.rpo := hg.hvals _ (getDom_eq_some_mem hgx)
          obtain ⟨hrd, hry⟩ := intersect_mem hg ifuel d y r h
          rw [chain_step hg hio hd]
          exact ⟨List.mem_cons_of_mem _ hrd, hry⟩
      · rw [if_neg h1] at h
        by_cases h2 : rpoNumOf (buildRpoNums dt.rpo) y < rpoNumOf (buildRpoNums dt.rpo) x
        · rw [if_pos h2] at h
          cases hgy : getDom dt.doms y with
          | none => rw [hgy] at h; exact absurd h (by simp)
          | some d =>
            rw [hgy] at h
            have hye : y ≠ e := by
              intro hye
              subst hye
              have hle := rankOf_le dt x
              have : rankOf dt y = dt.rpo.length := rankOf_entry dt hg.he
              have h2' : rankOf dt y < rankOf dt x := h2
              omega
            have hio : dt.idom_of y = some (some d) := by
              rw [idom_of_head dt hg.he y, if_neg (fun hh => hye hh.symm), hgy]
            have hd : d ∈ dt.rpo := hg.hvals _ (getDom_eq_some_mem hgy)
            obtain ⟨hrx, hrd⟩ := intersect_mem hg ifuel x d r h
            rw [chain_step hg hio hd]
            exact ⟨hrx, List.mem_cons_of_mem _ hrd⟩
        · rw [if_neg h2] at h
          exact absurd h (by simp)

/-- A fold whose step swallows `none` stays at `none`. -/
theorem foldl_none {α β : Type} (f : Option β → α → Option β)
    (hf : ∀ a, f none a = none) : ∀ l : List α, l.foldl f none = none
  | [] => rfl
  | a :: rest => by
    rw [List.foldl_cons, hf a]
    exact foldl_none f hf rest

/-- The candidate dominator folded from a seed over a predecessor list lies
on the chain of the seed and on the chain of every folded predecessor. -/
theorem fold_mem {dt : DomTree} {e : BlockId} (hg : GoodTree dt e)
    (pp : BlockId) (ifuel : Nat) :
    ∀ (l : List BlockId) (x nd : BlockId),
      l.foldl (fun acc pred =>
        match acc with
        | none => none
        | some new_dom =>
          if pred ≠ pp ∧ (getDom dt.doms pred).isSome then
            DomTree.intersect dt.doms (buildRpoNums dt.rpo) ifuel new_dom pred
          else
            some new_dom) (some x) = some nd →
      nd ∈ chainOf dt x ∧
        ∀ p ∈ l, p ≠ pp → (getDom dt.doms p).isSome → nd ∈ chainOf dt p
  | [], x, nd, h => by
    simp only [List.foldl_nil, Option.some.injEq] at h
    subst h
    exact ⟨List.mem_cons_self _ _, by intro p hp; simp at hp⟩
  | p :: rest, x, nd, h => by
    rw [List.foldl_cons] at h
    by_cases hc : p ≠ pp ∧ (getDom dt.doms p).isSome
    · simp only [if_pos hc] at h
      cases hi : DomTree.intersect dt.doms (buildRpoNums dt.rpo) ifuel x p with
      | none =>
        rw [hi] at h
        rw [foldl_none _ (fun a => rfl) rest] at h
        cases h
      | some r =>
        rw [hi] at h
        obtain ⟨hrx, hrp⟩ := intersect_mem hg ifuel x p r hi
        obtain ⟨hnd, hrest⟩ := fold_mem hg pp ifuel rest r nd h
        refine ⟨chain_trans hg hrx hnd, ?_⟩
        intro q hq hq1 hq2
        rcases List.mem_cons.mp hq with hqp | hqr
        · exact chain_trans hg (hqp ▸ hrp) hnd
        · exact hrest q hqr hq1 hq2
    · simp only [if_neg hc] at h
      obtain ⟨hnd, hrest⟩ := fold_mem hg pp ifuel rest x nd h
      refine ⟨hnd, ?_⟩
      intro q hq hq1 hq2
      rcases List.mem_cons.mp hq with hqp | hqr
      · exact absurd ⟨hqp ▸ hq1, hqp ▸ hq2⟩ hc
      · exact hrest q hqr hq1 hq2

/-- A pass step either leaves the state alone or raises the change flag. -/
theorem passBlock_cases (cfg : ControlFlowGraph) (nums : List (BlockId × Nat))
    (ifuel : Nat) (st : List (BlockId × BlockId) × Bool) (b : BlockId)
    (st1 : List (BlockId × BlockId) × Bool)
    (h : DomTree.passBlock cfg nums ifuel st b = some st1) :
    st1 = st ∨ st1.2 = true := by
  unfold DomTree.passBlock at h
  cases hf : (cfg.preds_of b).find? (fun pred => (getDom st.1 pred).isSome) with
  | none =>
    rw [hf] at h
    cases h
    exact Or.inl rfl
  | some pp =>
    rw [hf] at h
    simp only at h
    cases hfold : (cfg.preds_of b).foldl
        (fun acc pred =>
          match acc with
          | none => none
          | some new_dom =>
            if pred ≠ pp ∧ (getDom st.1 pred).isSome then
              DomTree.intersect st.1 nums ifuel new_dom pred
            else
              some new_dom) (some pp) with
    | none => rw [hfold] at h; cases h
    | some nd =>
      rw [hfold] at h
      have h' : (if getDom st.1 b = some nd then some st
          else some (setDom st.1 b nd, true)) = some st1 := h
      by_cases hsame : getDom st.1 b = some nd
      · rw [if_pos hsame] at h'
        cases h'
        exact Or.inl rfl
      · rw [if_neg hsame] at h'
        cases h'
        exact Or.inr rfl

/-- A pass that ends unchanged left every block untouched. -/
theorem passOnce_fixed (cfg : ControlFlowGraph) (nums : List (BlockId × Nat))
    (ifuel : Nat) :
    ∀ (l : List BlockId) (st : List (BlockId × BlockId) × Bool)
      (d' : List (BlockId × BlockId)),
      DomTree.passOnce cfg nums ifuel l st = some (d', false) →
      st.1 = d' ∧ st.2 = false ∧
        ∀ b ∈ l, DomTree.passBlock cfg nums ifuel st b = some st
  | [], st, d', h => by
    unfold DomTree.passOnce at h
    cases h
    exact ⟨rfl, rfl, by intro b hb; simp at hb⟩
  | b :: rest, st, d', h => by
    unfold DomTree.passOnce at h
    cases hb : DomTree.passBlock cfg nums ifuel st b with
    | none => rw [hb] at h; cases h
    | some st1 =>
      rw [hb] at h
      obtain ⟨h1, h2, h3⟩ := passOnce_fixed cfg nums ifuel rest st1 d' h
      rcases passBlock_cases cfg nums ifuel st b st1 hb with hsame | hflag
      · subst hsame
        refine ⟨h1, h2, ?_⟩
        intro c hc
        rcases List.mem_cons.mp hc with hcb | hcr
        · rw [hcb]; exact hb
        · exact h3 c hcr
      · rw [hflag] at h2
        cases h2

/-- The `while changed` loop of `compute` has stopped: one more pass over
the RPO tail (with the fuels `compute` uses) changes nothing. -/
abbrev Converged (cfg : ControlFlowGraph) (dt : DomTree) : Prop :=
  DomTree.passOnce cfg (buildRpoNums dt.rpo) (2 * dt.rpo.length + 2)
    dt.rpo.tail (dt.doms, false) = some (dt.doms, false)

/-- At a fixed point, the recorded dominator of a block with at least one
processed predecessor is a common chain ancestor of all its processed
predecessors. -/
theorem converged_block {cfg : ControlFlowGraph} {dt : DomTree} {e : BlockId}
    (hg : GoodTree dt e) (hconv : Converged cfg dt)
    {b : BlockId} (hb : b ∈ dt.rpo.tail)
    {p0 : BlockId} (hp0 : p0 ∈ cfg.preds_of b)
    (hp0d : (getDom dt.doms p0).isSome) :
    ∃ nd, getDom dt.doms b = some nd ∧
      ∀ p ∈ cfg.preds_of b, (getDom dt.doms p).isSome → nd ∈ chainOf dt p := by
  obtain ⟨-, -, hall⟩ := passOnce_fixed cfg (buildRpoNums dt.rpo)
    (2 * dt.rpo.length + 2) dt.rpo.tail (dt.doms, false) dt.doms hconv
  have hpb := hall b hb
  unfold DomTree.passBlock at hpb
  cases hf : (cfg.preds_of b).find?
      (fun pred => (getDom (dt.doms, false).1 pred).isSome) with
  | none =>
    exfalso
    obtain ⟨y, hy⟩ := find?_of_mem
      (fun pred => (getDom dt.doms pred).isSome) hp0 hp0d
    have : (cfg.preds_of b).find?
        (fun pred => (getDom (dt.doms, false).1 pred).isSome) = some y := hy
    rw [this] at hf
    cases hf
  | some pp =>
    rw [hf] at hpb
    simp only at hpb
    cases hfold : (cfg.preds_of b).foldl
        (fun acc pred =>
          match acc with
          | none => none
          | some new_dom =>
            if pred ≠ pp ∧ (getDom (dt.doms, false).1 pred).isSome then
              DomTree.intersect (dt.doms, false).1 (buildRpoNums dt.rpo)
                (2 * dt.rpo.length + 2) new_dom pred
            else
              some new_dom) (some pp) with
    | none => rw [hfold] at hpb; cases hpb
    | some nd =>
      rw [hfold] at hpb
      have hpb' : (if getDom dt.doms b = some nd then some (dt.doms, false)
          else some (setDom dt.doms b nd, true)) =
          some ((dt.doms, false) : List (BlockId × BlockId) × Bool) := hpb
      by_cases hsame : getDom dt.doms b = some nd
      · have hfold' : (cfg.preds_of b).foldl
            (fun acc pred =>
              match acc with
              | none => none
              | some new_dom =>
                if pred ≠ pp ∧ (getDom dt.doms pred).isSome then
                  DomTree.intersect dt.doms (buildRpoNums dt.rpo)
                    (2 * dt.rpo.length + 2) new_dom pred
                else
                  some new_dom) (some pp) = some nd := hfold
        obtain ⟨hndpp, hrest⟩ := fold_mem hg pp (2 * dt.rpo.length + 2)
          (cfg.preds_of b) pp nd hfold'
        refine ⟨nd, hsame, ?_⟩
        intro p hp hpd
        by_cases hppq : p = pp
        · exact hppq ▸ hndpp
        · exact hrest p hp hppq hpd
      · rw [if_neg hsame] at hpb'
        simp at hpb'

/-- At a fixed point, a block with exactly one (processed) predecessor has
that predecessor recorded as its dominator. -/
theorem converged_single_pred {cfg : ControlFlowGraph} {dt : DomTree}
    (hconv : Converged cfg dt)
    {b q : BlockId} (hb : b ∈ dt.rpo.tail)
    (hpreds : cfg.preds_of b = [q]) (hq : (getDom dt.doms q).isSome) :
    getDom dt.doms b = some q := by
  obtain ⟨-, -, hall⟩ := passOnce_fixed cfg (buildRpoNums dt.rpo)
    (2 * dt.rpo.length + 2) dt.rpo.tail (dt.doms, false) dt.doms hconv
  have hpb := hall b hb
  unfold DomTree.passBlock at hpb
  rw [hpreds] at hpb
  have hfq : ([q].find? fun pred => (getDom (dt.doms, false).1 pred).isSome) =
      some q := List.find?_cons_of_pos _ hq
  rw [hfq] at hpb
  simp only at hpb
  have hfold : ([q].foldl
      (fun acc pred =>
        match acc with
        | none => none
        | some new_dom =>
          if pred ≠ q ∧ (getDom (dt.doms, false).1 pred).isSome then
            DomTree.intersect (dt.doms, false).1 (buildRpoNums dt.rpo)
              (2 * dt.rpo.length + 2) new_dom pred
          else
            some new_dom) (some q)) = some q := by
    simp
  rw [hfold] at hpb
  have hpb' : (if getDom dt.doms b = some q then some (dt.doms, false)
      else some (setDom dt.doms b q, true)) =
      some ((dt.doms, false) : List (BlockId × BlockId) × Bool) := hpb
  by_cases hsame : getDom dt.doms b = some q
  · exact hsame
  · rw [if_neg hsame] at hpb'
    simp at hpb'

/-- Specification of the frontier walk: starting from a cursor whose chain
reaches `doms[block]` after the prefix `pre`, the walk terminates and adds
`block` to the frontier of exactly the prefix blocks. -/
theorem dfWalk_spec {dt : DomTree} {e : BlockId} (hg : GoodTree dt e)
    (block ib : BlockId) (hib : getDom dt.doms block = some ib) :
    ∀ (pre : List BlockId) (runner : BlockId) (fuel : Nat) (df : DFSet),
      chainOf dt runner = pre ++ chainOf dt ib →
      (∀ z ∈ pre, rankOf dt z < rankOf dt ib) →
      pre.length < fuel →
      ∃ df', DomTree.dfWalk dt block fuel runner df = some df' ∧
        ∀ q c, c ∈ df'.frontiers q ↔
          (c ∈ df.frontiers q ∨ (c = block ∧ q ∈ pre))
  | [], runner, fuel, df, hchain, hranks, hfuel => by
    obtain ⟨f, rfl⟩ : ∃ f, fuel = f + 1 := ⟨fuel - 1, by omega⟩
    have hrib : runner = ib := by
      have h1 : (chainOf dt runner).head? = some runner := rfl
      have h2 : (([] : List BlockId) ++ chainOf dt ib).head? = some ib := rfl
      rw [hchain, h2] at h1
      exact (Option.some.inj h1).symm
    refine ⟨df, ?_, ?_⟩
    · unfold DomTree.dfWalk
      rw [if_pos (by rw [hib, hrib])]
    · intro q c
      simp
  | z :: pre', runner, fuel, df, hchain, hranks, hfuel => by
    obtain ⟨f, rfl⟩ : ∃ f, fuel = f + 1 := ⟨fuel - 1, by omega⟩
    have hzr : z = runner := by
      have h1 : (chainOf dt runner).head? = some runner := rfl
      have h2 : ((z :: pre') ++ chainOf dt ib).head? = some z := rfl
      rw [hchain, h2] at h1
      exact Option.some.inj h1
    subst hzr
    have hclimb : climb dt (dt.rpo.length + 1) z = pre' ++ chainOf dt ib := by
      have : chainOf dt z = z :: (pre' ++ chainOf dt ib) := hchain
      exact List.cons.inj this |>.2
    have hnonempty : ∃ y, y ∈ climb dt (dt.rpo.length + 1) z := by
      refine ⟨ib, ?_⟩
      rw [hclimb]
      exact List.mem_append_right _ (List.mem_cons_self _ _)
    obtain ⟨y, hy⟩ := hnonempty
    obtain ⟨hzrpo, hze, -, -⟩ := climb_mem hg _ z y hy
    rcases idom_cases hg z with ⟨hz', -⟩ | ⟨hmem, -, -⟩ |
        ⟨d, hmem, hz', hio, hgd, hd, hrank⟩
    · exact absurd hz' hze
    · exact absurd hzrpo hmem
    · have hchd : chainOf dt d = pre' ++ chainOf dt ib := by
        have hstep := chain_step hg hio hd
        rw [hchain] at hstep
        exact (List.cons.inj hstep).2.symm
      have hzib : ¬z = ib := by
        intro hzib
        have := hranks z (List.mem_cons_self _ _)
        rw [hzib] at this
        omega
      have hg1 : ¬(some z = getDom dt.doms block) := by
        rw [hib]
        intro hc
        exact hzib (Option.some.inj hc)
      have hreach : dt.is_reachable z = some true := by
        unfold DomTree.is_reachable
        rw [hio]
        rfl
      have hlen : pre'.length < f := by
        simp only [List.length_cons] at hfuel
        omega
      obtain ⟨df', hdf', hmemb⟩ := dfWalk_spec hg block ib hib pre' d f
        (df.insert z block) hchd
        (fun w hw => hranks w (List.mem_cons_of_mem _ hw)) hlen
      refine ⟨df', ?_, ?_⟩
      · unfold DomTree.dfWalk
        rw [if_neg hg1, hreach, hgd]
        exact hdf'
      · intro q c
        rw [hmemb q c, mem_frontiers_insert]
        by_cases hqz : q = z
        · subst hqz
          simp only [List.mem_cons, ne_eq, not_true_eq_false, false_and,
            or_false, true_and, if_true]
          tauto
        · simp only [List.mem_cons, ne_eq, hqz, false_and, false_or,
            not_false_eq_true, true_and]

/-- A walk started at an unreachable cursor changes nothing. -/
theorem dfWalk_unreachable {dt : DomTree} (block pred : BlockId) (df : DFSet)
    (fuel : Nat) (hpred : dt.is_reachable pred = some false) :
    DomTree.dfWalk dt block (fuel + 1) pred df = some df := by
  unfold DomTree.dfWalk
  by_cases h1 : some pred = getDom dt.doms block
  · rw [if_pos h1]
  · rw [if_neg h1, hpred]

/-- Blocks strictly before `doms[block]` on a predecessor's chain are the
chain blocks that are not on the chain of `doms[block]`. -/
theorem pre_mem_iff {dt : DomTree} {e : BlockId} (hg : GoodTree dt e)
    {ib : BlockId} {p : BlockId} {pre : List BlockId}
    (hsplit : chainOf dt p = pre ++ chainOf dt ib)
    (hranks : ∀ z ∈ pre, rankOf dt z < rankOf dt ib) (q : BlockId) :
    q ∈ pre ↔ q ∈ chainOf dt p ∧ q ∉ chainOf dt ib := by
  constructor
  · intro hq
    refine ⟨by rw [hsplit]; exact List.mem_append_left _ hq, ?_⟩
    intro hqib
    have h1 := hranks q hq
    rcases chain_mem_rank hg hqib with h | ⟨-, h⟩
    · rw [h] at h1
      omega
    · omega
  · rintro ⟨hqc, hqib⟩
    rw [hsplit] at hqc
    rcases List.mem_append.mp hqc with h | h
    · exact h
    · exact absurd h hqib

/-- Specification of the per-block predecessor loop of `compute_df`: it
terminates, and it adds `block` to the frontier of exactly the blocks that
sit on some reachable listed predecessor's chain but not on the chain of
`doms[block]`. -/
theorem dfPreds_spec {cfg : ControlFlowGraph} {dt : DomTree} {e : BlockId}
    (hg : GoodTree dt e) (block ib : BlockId)
    (hib : getDom dt.doms block = some ib)
    (hnca : ∀ p ∈ cfg.preds_of block,
      (getDom dt.doms p).isSome → ib ∈ chainOf dt p) :
    ∀ (l : List BlockId), (∀ p ∈ l, p ∈ cfg.preds_of block) →
      ∀ df : DFSet, ∃ df', DomTree.dfPreds dt block l df = some df' ∧
        ∀ q c, c ∈ df'.frontiers q ↔
          (c ∈ df.frontiers q ∨ (c = block ∧ ∃ p ∈ l, p ∈ dt.rpo ∧
            q ∈ chainOf dt p ∧ q ∉ chainOf dt ib))
  | [], _, df => ⟨df, rfl, by
      intro q c
      simp⟩
  | pred :: rest, hl, df => by
    by_cases hpr : pred ∈ dt.rpo
    · have hpd : (getDom dt.doms pred).isSome := hg.hdef pred hpr
      have hibchain : ib ∈ chainOf dt pred :=
        hnca pred (hl pred (List.mem_cons_self _ _)) hpd
      obtain ⟨pre, hsplit, hranks⟩ :=
        chain_split hg (dt.rpo.length + 1) pred ib (by omega) hibchain
      have hlen : pre.length < dt.rpo.length + 1 := by
        have h1 : (chainOf dt pred).length ≤ dt.rpo.length := chain_len hg hpr
        have h2 : (chainOf dt pred).length =
            pre.length + (chainOf dt ib).length := by
          rw [hsplit, List.length_append]
        have h3 : 1 ≤ (chainOf dt ib).length := by
          unfold chainOf
          simp
        omega
      obtain ⟨df1, hdf1, hmem1⟩ := dfWalk_spec hg block ib hib pre pred
        (dt.rpo.length + 1) df hsplit hranks hlen
      obtain ⟨df', hdf', hmem'⟩ := dfPreds_spec hg block ib hib hnca rest
        (fun p hp => hl p (List.mem_cons_of_mem _ hp)) df1
      refine ⟨df', ?_, ?_⟩
      · unfold DomTree.dfPreds
        rw [hdf1]
        exact hdf'
      · intro q c
        rw [hmem' q c, hmem1 q c]
        have hpreq := pre_mem_iff hg hsplit hranks q
        constructor
        · rintro ((hc | ⟨hc, hq⟩) | ⟨hc, p, hp, hprpo, hqc, hqib⟩)
          · exact Or.inl hc
          · exact Or.inr ⟨hc, pred, List.mem_cons_self _ _, hpr, hpreq.mp hq⟩
          · exact Or.inr ⟨hc, p, List.mem_cons_of_mem _ hp, hprpo, hqc, hqib⟩
        · rintro (hc | ⟨hc, p, hp, hprpo, hqc, hqib⟩)
          · exact Or.inl (Or.inl hc)
          · rcases List.mem_cons.mp hp with hpp | hpp
            · exact Or.inl (Or.inr ⟨hc, hpreq.mpr ⟨hpp ▸ hqc, hqib⟩⟩)
            · exact Or.inr ⟨hc, p, hpp, hprpo, hqc, hqib⟩
    · have hreach : dt.is_reachable pred = some false := by
        have hpe : pred ≠ e := by
          intro h
          obtain ⟨tl, hc⟩ := rpo_cons_of_head hg.he
          rw [h, hc] at hpr
          exact hpr (List.mem_cons_self _ _)
        have hpg : getDom dt.doms pred = none := by
          cases hpg : getDom dt.doms pred with
          | none => rfl
          | some v => exact absurd (hg.hkeys _ (getDom_eq_some_mem hpg)) hpr
        unfold DomTree.is_reachable
        rw [idom_of_head dt hg.he pred, if_neg (fun h => hpe h.symm), hpg]
        rfl
      obtain ⟨df', hdf', hmem'⟩ := dfPreds_spec hg block ib hib hnca rest
        (fun p hp => hl p (List.mem_cons_of_mem _ hp)) df
      refine ⟨df', ?_, ?_⟩
      · unfold DomTree.dfPreds
        rw [dfWalk_unreachable block pred df dt.rpo.length hreach]
        exact hdf'
      · intro q c
        rw [hmem' q c]
        constructor
        · rintro (hc | ⟨hc, p, hp, hprpo, hqc, hqib⟩)
          · exact Or.inl hc
          · exact Or.inr ⟨hc, p, List.mem_cons_of_mem _ hp, hprpo, hqc, hqib⟩
        · rintro (hc | ⟨hc, p, hp, hprpo, hqc, hqib⟩)
          · exact Or.inl hc
          · rcases List.mem_cons.mp hp with hpp | hpp
            · exact absurd (hpp ▸ hprpo) hpr
            · exact Or.inr ⟨hc, p, hpp, hprpo, hqc, hqib⟩

/-- Specification of the block loop of `compute_df` on a converged state:
it terminates and fills the frontier sets exactly as the Cytron walks
dictate: `c` enters `q`'s frontier iff `c` is a processed merge block
(at least two predecessors) and `q` lies on a reachable predecessor's
chain but not on the chain of `doms[c]`. -/
theorem dfBlocks_spec {cfg : ControlFlowGraph} {dt : DomTree} {e : BlockId}
    (hg : GoodTree dt e) (hconv : Converged cfg dt)
    (hwf3 : ∀ b ∈ dt.rpo.tail, ∃ p, p ∈ cfg.preds_of b ∧ p ∈ dt.rpo) :
    ∀ (l : List BlockId), (∀ b ∈ l, b ∈ dt.rpo) →
      ∀ df : DFSet, ∃ df', DomTree.dfBlocks dt cfg l df = some df' ∧
        ∀ q c, c ∈ df'.frontiers q ↔
          (c ∈ df.frontiers q ∨ (c ∈ l ∧ 2 ≤ cfg.pred_num_of c ∧
            ∃ ib, getDom dt.doms c = some ib ∧ ∃ p ∈ cfg.preds_of c,
              p ∈ dt.rpo ∧ q ∈ chainOf dt p ∧ q ∉ chainOf dt ib))
  | [], _, df => ⟨df, rfl, by intro q c; simp⟩
  | block :: rest, hl, df => by
    have hbl : block ∈ dt.rpo := hl block (List.mem_cons_self _ _)
    by_cases hnum : cfg.pred_num_of block < 2
    · obtain ⟨df', hdf', hmem'⟩ := dfBlocks_spec hg hconv hwf3 rest
        (fun b hb => hl b (List.mem_cons_of_mem _ hb)) df
      refine ⟨df', ?_, ?_⟩
      · unfold DomTree.dfBlocks
        rw [if_pos hnum]
        exact hdf'
      · intro q c
        rw [hmem' q c]
        constructor
        · rintro (hc | ⟨hcl, hrest⟩)
          · exact Or.inl hc
          · exact Or.inr ⟨List.mem_cons_of_mem _ hcl, hrest⟩
        · rintro (hc | ⟨hcl, hn2, hrest⟩)
          · exact Or.inl hc
          · rcases List.mem_cons.mp hcl with hcb | hcr
            · exfalso
              rw [hcb] at hn2
              omega
            · exact Or.inr ⟨hcr, hn2, hrest⟩
    · have hbib : ∃ ib, getDom dt.doms block = some ib ∧
          ∀ p ∈ cfg.preds_of block,
            (getDom dt.doms p).isSome → ib ∈ chainOf dt p := by
        by_cases hbe : block = e
        · subst hbe
          refine ⟨block, hg.hent, ?_⟩
          intro p hp hpd
          obtain ⟨v, hv, -⟩ := getDom_isSome_iff.mp hpd
          exact entry_mem_chain hg (dt.rpo.length + 1) p (by omega)
            (hg.hkeys _ hv)
        · have hbtail : block ∈ dt.rpo.tail := by
            obtain ⟨tl, hc⟩ := rpo_cons_of_head hg.he
            rw [hc] at hbl
            rcases List.mem_cons.mp hbl with h | h
            · exact absurd h hbe
            · rw [hc]
              exact h
          obtain ⟨p0, hp0, hp0r⟩ := hwf3 block hbtail
          exact converged_block hg hconv hbtail hp0 (hg.hdef p0 hp0r)
      obtain ⟨ib, hib, hnca⟩ := hbib
      obtain ⟨df1, hdf1, hmem1⟩ := dfPreds_spec hg block ib hib hnca
        (cfg.preds_of block) (fun p hp => hp) df
      obtain ⟨df', hdf', hmem'⟩ := dfBlocks_spec hg hconv hwf3 rest
        (fun b hb => hl b (List.mem_cons_of_mem _ hb)) df1
      refine ⟨df', ?_, ?_⟩
      · unfold DomTree.dfBlocks
        rw [if_neg hnum, hdf1]
        exact hdf'
      · intro q c
        rw [hmem' q c, hmem1 q c]
        constructor
        · rintro ((hc | ⟨hc, hE⟩) | ⟨hcl, hrest⟩)
          · exact Or.inl hc
          · exact Or.inr ⟨hc ▸ List.mem_cons_self _ _, hc ▸ Nat.le_of_not_lt hnum,
              hc ▸ ⟨ib, hib, hE⟩⟩
          · exact Or.inr ⟨List.mem_cons_of_mem _ hcl, hrest⟩
        · rintro (hc | ⟨hcl, hn2, ib', hib', hE⟩)
          · exact Or.inl (Or.inl hc)
          · rcases List.mem_cons.mp hcl with hcb | hcr
            · subst hcb
              have : ib' = ib := by
                rw [hib] at hib'
                exact (Option.some.inj hib').symm
              subst this
              exact Or.inl (Or.inr ⟨rfl, hE⟩)
            · exact Or.inr ⟨hcr, hn2, ib', hib', hE⟩

/-- Predecessor and successor membership agree with the edge list. -/
theorem mem_preds_iff {cfg : ControlFlowGraph} {p b : BlockId} :
    p ∈ cfg.preds_of b ↔ b ∈ cfg.succs_of p := by
  unfold ControlFlowGraph.preds_of ControlFlowGraph.succs_of
  simp only [List.mem_map, List.mem_filter, beq_iff_eq]
  constructor
  · rintro ⟨pr, ⟨hmem, h2⟩, h1⟩
    exact ⟨pr, ⟨hmem, h1⟩, h2⟩
  · rintro ⟨pr, ⟨hmem, h1⟩, h2⟩
    exact ⟨pr, ⟨hmem, h2⟩, h1⟩

/-- The entry block is on the RPO sequence. -/
theorem entry_mem_rpo {dt : DomTree} {e : BlockId}
    (he : dt.rpo.head? = some e) : e ∈ dt.rpo := by
  obtain ⟨tl, hc⟩ := rpo_cons_of_head he
  rw [hc]
  exact List.mem_cons_self _ _

/-- A block outside the RPO sequence has the trivial one-element chain. -/
theorem chain_unreachable {dt : DomTree} {e : BlockId} (hg : GoodTree dt e)
    {x : BlockId} (hx : x ∉ dt.rpo) : chainOf dt x = [x] := by
  have hxe : x ≠ e := fun h => hx (h ▸ entry_mem_rpo hg.he)
  have hxg : getDom dt.doms x = none := by
    cases hxg : getDom dt.doms x with
    | none => rfl
    | some v => exact absurd (hg.hkeys _ (getDom_eq_some_mem hxg)) hx
  exact chain_stop (by rw [idom_of_head dt hg.he x,
    if_neg (fun h => hxe h.symm), hxg])

/-- The strict chain of a non-entry RPO block is the chain of its recorded
dominator. -/
theorem climb_eq_chain_idom {dt : DomTree} {e : BlockId} (hg : GoodTree dt e)
    {b d : BlockId} (hio : dt.idom_of b = some (some d)) (hd : d ∈ dt.rpo) :
    climb dt (dt.rpo.length + 1) b = chainOf dt d := by
  have hstep := chain_step hg hio hd
  exact (List.cons.inj hstep).2

/-- C5, amended: on the state left by `compute` and `compute_df`, for every
reachable `p`, `b` lies in `p`'s dominance frontier iff `p` dominates some
predecessor of `b` but does not strictly dominate `b` — for every `b`
other than the entry block, and also for `b` the entry block provided `p`
is not the entry and the entry has at least two predecessors.  In the
remaining entry cases (`p` the entry itself, or an entry with fewer than
two predecessors) membership is always false even where the right-hand
side holds: a block with fewer than two predecessors is never processed,
and the walks stop at the entry. -/
theorem c5_frontier_iff (cfg : ControlFlowGraph) (dt : DomTree) (e : BlockId)
    (hg : GoodTree dt e) (hconv : Converged cfg dt)
    (hwf3 : ∀ b ∈ dt.rpo.tail, ∃ p ∈ cfg.preds_of b, p ∈ dt.rpo)
    (hclosed : ∀ p ∈ dt.rpo, ∀ s ∈ cfg.succs_of p, s ∈ dt.rpo) :
    ∃ df, dt.compute_df cfg = some df ∧
      ∀ p b, p ∈ dt.rpo →
        ((b ≠ e ∨ (p ≠ e ∧ 2 ≤ cfg.pred_num_of e)) →
          (df.in_frontier_of b p = true ↔
            ∃ pred ∈ cfg.preds_of b, dt.dominates p pred = some true ∧
              ¬dt.strictly_dominates p b = some true)) ∧
        (b = e → (p = e ∨ cfg.pred_num_of e < 2) →
          df.in_frontier_of b p = false) := by
  have hwf3' : ∀ b ∈ dt.rpo.tail, ∃ q, q ∈ cfg.preds_of b ∧ q ∈ dt.rpo := hwf3
  obtain ⟨df, hdf, hchar⟩ := dfBlocks_spec hg hconv hwf3' dt.rpo
    (fun b hb => hb) { sets := [] }
  have hioe : dt.idom_of e = some none := by
    rw [idom_of_head dt hg.he e, if_pos rfl]
  have hche : chainOf dt e = [e] := chain_stop hioe
  have hchar2 : ∀ q c, c ∈ df.frontiers q ↔
      (c ∈ dt.rpo ∧ 2 ≤ cfg.pred_num_of c ∧
        ∃ ib, getDom dt.doms c = some ib ∧ ∃ pr ∈ cfg.preds_of c,
          pr ∈ dt.rpo ∧ q ∈ chainOf dt pr ∧ q ∉ chainOf dt ib) := by
    intro q c
    rw [hchar q c]
    have hempty : (c ∈ DFSet.frontiers { sets := [] } q) = False := by
      simp [DFSet.frontiers, List.find?]
    rw [hempty]
    simp only [false_or]
  have hlhs : ∀ c q, df.in_frontier_of c q = true ↔ c ∈ df.frontiers q := by
    intro c q
    unfold DFSet.in_frontier_of
    simp
  refine ⟨df, hdf, ?_⟩
  intro p b hp
  constructor
  · intro hside
    by_cases hbne : b = e
    · rcases hside with h | ⟨hpe, hn2⟩
      · exact absurd hbne h
      · subst hbne
        rw [hlhs b p, hchar2 p b]
        constructor
        · rintro ⟨-, -, ib, hib, pred, hpred, -, hqc, -⟩
          refine ⟨pred, hpred, (dominates_iff hg p pred).mpr hqc, ?_⟩
          rw [strictly_dominates_eq hg p b,
            climb_succ_stop dt.rpo.length hioe]
          simp
        · rintro ⟨pred, hpred, hdom, -⟩
          have hqc : p ∈ chainOf dt pred := (dominates_iff hg p pred).mp hdom
          have hpredr : pred ∈ dt.rpo := by
            by_cases hh : pred ∈ dt.rpo
            · exact hh
            · rw [chain_unreachable hg hh] at hqc
              have : p = pred := by simpa using hqc
              exact absurd (this ▸ hp) hh
          refine ⟨entry_mem_rpo hg.he, hn2, b, hg.hent, pred, hpred, hpredr,
            hqc, ?_⟩
          rw [hche]
          simp [hpe]
    · rw [hlhs b p, hchar2 p b]
      by_cases hbr : b ∈ dt.rpo
      · rcases idom_cases hg b with ⟨hbe, -⟩ | ⟨hmem, -, -⟩ |
            ⟨d, hmem, -, hio, hgd, hd, -⟩
        · exact absurd hbe hbne
        · exact absurd hbr hmem
        · have hclimb : climb dt (dt.rpo.length + 1) b = chainOf dt d :=
            climb_eq_chain_idom hg hio hd
          have hbtail : b ∈ dt.rpo.tail := by
            obtain ⟨tl, hc⟩ := rpo_cons_of_head hg.he
            rw [hc] at hbr
            rcases List.mem_cons.mp hbr with h | h
            · exact absurd h hbne
            · rw [hc]
              exact h
          constructor
          · rintro ⟨-, -, ib, hib, pred, hpred, -, hqc, hqib⟩
            have hibd : ib = d := by
              rw [hgd] at hib
              exact (Option.some.inj hib).symm
            subst hibd
            refine ⟨pred, hpred, (dominates_iff hg p pred).mpr hqc, ?_⟩
            rw [strictly_dominates_iff hg p b, hclimb]
            exact hqib
          · rintro ⟨pred, hpred, hdom, hnsdom⟩
            have hqc : p ∈ chainOf dt pred := (dominates_iff hg p pred).mp hdom
            have hqib : p ∉ chainOf dt d := by
              rw [strictly_dominates_iff hg p b, hclimb] at hnsdom
              exact hnsdom
            have hpredr : pred ∈ dt.rpo := by
              by_cases hh : pred ∈ dt.rpo
              · exact hh
              · rw [chain_unreachable hg hh] at hqc
                have : p = pred := by simpa using hqc
                exact absurd (this ▸ hp) hh
            by_cases hn2 : 2 ≤ cfg.pred_num_of b
            · exact ⟨hbr, hn2, d, hgd, pred, hpred, hpredr, hqc, hqib⟩
            · exfalso
              obtain ⟨q, hq, hqr⟩ := hwf3 b hbtail
              have hlone : cfg.preds_of b = [q] := by
                have hlen : (cfg.preds_of b).length ≤ 1 := by
                  unfold ControlFlowGraph.pred_num_of at hn2
                  omega
                cases hc : cfg.preds_of b with
                | nil => rw [hc] at hq; simp at hq
                | cons a rest =>
                  rw [hc] at hlen
                  simp only [List.length_cons] at hlen
                  have : rest = [] := List.eq_nil_of_length_eq_zero (by omega)
                  subst this
                  rw [hc] at hq
                  have : q = a := by simpa using hq
                  rw [this]
              have hsingle : getDom dt.doms b = some q :=
                converged_single_pred hconv hbtail hlone (hg.hdef q hqr)
              have hdq : d = q := by
                rw [hgd] at hsingle
                exact Option.some.inj hsingle
              have hpq : pred = q := by
                rw [hlone] at hpred
                simpa using hpred
              exact hqib (hdq ▸ hpq ▸ hqc)
      · constructor
        · rintro ⟨hbl, -⟩
          exact absurd hbl hbr
        · rintro ⟨pred, hpred, hdom, -⟩
          exfalso
          have hqc : p ∈ chainOf dt pred := (dominates_iff hg p pred).mp hdom
          by_cases hh : pred ∈ dt.rpo
          · exact hbr (hclosed pred hh b (mem_preds_iff.mp hpred))
          · rw [chain_unreachable hg hh] at hqc
            have : p = pred := by simpa using hqc
            exact hh (this ▸ hp)
  · intro hbe hcase
    subst hbe
    have hnot : ¬(b ∈ df.frontiers p) := by
      intro hmem
      rw [hchar2 p b] at hmem
      obtain ⟨-, hn2, ib, hib, pred, -, -, -, hpnotib⟩ := hmem
      have hibe : ib = b := by
        rw [hg.hent] at hib
        exact (Option.some.inj hib).symm
      subst hibe
      rw [hche] at hpnotib
      rcases hcase with hpe | hlt
      · exact hpnotib (by rw [hpe]; exact List.mem_cons_self _ _)
      · unfold ControlFlowGraph.pred_num_of at hn2 hlt
        omega
    exact decide_eq_false hnot

/-- C5, counterexample: the claim as stated fails when `b` is an entry
block with fewer than two predecessors.  In the two-block loop
`0 → 1 → 0`, block `1` dominates the (only) predecessor `1` of the entry
`0` and does not strictly dominate `0`, yet `compute_df` skips both
blocks (each has a single predecessor) and records no frontier
membership, so `0` never enters the frontier of `1` on this graph. -/
theorem c5_counterexample :
    DomTree.compute DomTree.new cfgLoop2 = some dtLoop2 ∧
    dtLoop2.compute_df cfgLoop2 = some { sets := [] } ∧
    1 ∈ cfgLoop2.preds_of 0 ∧
    dtLoop2.dominates 1 1 = some true ∧
    dtLoop2.strictly_dominates 1 0 = some false ∧
    DFSet.in_frontier_of { sets := [] } 0 1 = false := by
  refine ⟨by decide, by decide, by decide, by decide, by decide, by decide⟩

/-- C5 witness: the amended equivalence instantiated on the diamond graph
puts the merge block `3` in the frontier of `1`; on the double loop
through the entry (`0 → 1 → 0`, `0 → 2 → 0`) it puts the entry `0` in the
frontier of `1` (entry with two predecessors), while `0` never enters the
frontier of the entry itself. -/
theorem c5_witness : dfDiamond.in_frontier_of 3 1 = true ∧
    dfLoopEntry.in_frontier_of 0 1 = true ∧
    dfLoopEntry.in_frontier_of 0 0 = false := by
  obtain ⟨df, hdf, hiff⟩ := c5_frontier_iff cfgDiamond dtDiamond 0
    ⟨rfl, by decide, by decide, by decide, by decide, by decide, by decide⟩
    (by decide) (by decide) (by decide)
  have hcomp : dtDiamond.compute_df cfgDiamond = some dfDiamond := by decide
  rw [hcomp] at hdf
  have hdfeq : df = dfDiamond := (Option.some.inj hdf).symm
  subst hdfeq
  obtain ⟨df2, hdf2, hiff2⟩ := c5_frontier_iff cfgLoopEntry dtLoopEntry 0
    ⟨rfl, by decide, by decide, by decide, by decide, by decide, by decide⟩
    (by decide) (by decide) (by decide)
  have hcomp2 : dtLoopEntry.compute_df cfgLoopEntry = some dfLoopEntry := by decide
  rw [hcomp2] at hdf2
  have hdfeq2 : df2 = dfLoopEntry := (Option.some.inj hdf2).symm
  subst hdfeq2
  refine ⟨?_, ?_, ?_⟩
  · exact ((hiff 1 3 (by decide)).1 (Or.inl (by decide))).mpr
      ⟨1, by decide, by decide, by decide⟩
  · exact ((hiff2 1 0 (by decide)).1 (Or.inr ⟨by decide, by decide⟩)).mpr
      ⟨1, by decide, by decide, by decide⟩
  · exact (hiff2 0 0 (by decide)).2 rfl (Or.inl rfl)
